import Mathlib

/-!
Verification development for `ptb.py`, a module for reading and
transforming Penn-Treebank bracketed trees.

The Python source is shallowly embedded:

* `Symbol.ofString` mirrors `Symbol.__init__`, which scans the label with
  the regex
  `(?P<label>^[^0-9=-]+)|(?:-(?P<tag>[^0-9=-]+))|(?:=(?P<parind>[0-9]+))|(?:-(?P<coind>[0-9]+))`
  via `re.finditer`: at each position the alternatives are tried left to
  right (the anchored `label` alternative only at position 0); when no
  alternative matches the scan advances one character.  The scanner is
  written with an explicit fuel argument (initialised to the string
  length, which always suffices since every step consumes at least one
  character) so that it is structurally recursive and computable by
  `decide`.
* `TExpr` mirrors the Python node class with its `head` field (a `Symbol`,
  a `Leaf`, or `None`) and its `first_child` / `next_sibling` links.  A
  Python child/sibling slot holds either a node or `None`; the `None`
  value is embedded as the extra constructor `TExpr.nil`, so that the
  type is a plain (non-nested) inductive and all recursions are
  structural.
* `parse` mirrors the shift/reduce loop, with Python's `IndexError` on
  out-of-range stack access modelled as an explicit error value.
* in-place mutation (`remove_empty_elements`, `add_root`) is modelled by
  returning the tree value the mutated object graph denotes afterwards.
-/

set_option autoImplicit false

namespace Ptb

/-- The character class `[^0-9=-]` of the label regex. -/
def isLabelChar (c : Char) : Bool := !(c.isDigit || c == '=' || c == '-')

/-- One regex match: which named group matched and its text. -/
inductive Piece where
  | plabel (s : List Char)
  | ptag (s : List Char)
  | pparind (s : List Char)
  | pcoind (s : List Char)
deriving DecidableEq, Repr

/-- `re.finditer` at positions after 0 (the anchored `label` alternative can
no longer match): try `-tag`, then `=parind`, then `-coind`; otherwise
advance one character.  Structural on the fuel. -/
def scanRestF : Nat → List Char → List Piece
  | 0, _ => []
  | _ + 1, [] => []
  | fuel + 1, c :: cs =>
    if c = '-' then
      if (cs.takeWhile isLabelChar).isEmpty then
        if (cs.takeWhile Char.isDigit).isEmpty then
          scanRestF fuel cs
        else
          Piece.pcoind (cs.takeWhile Char.isDigit) :: scanRestF fuel (cs.dropWhile Char.isDigit)
      else
        Piece.ptag (cs.takeWhile isLabelChar) :: scanRestF fuel (cs.dropWhile isLabelChar)
    else if c = '=' then
      if (cs.takeWhile Char.isDigit).isEmpty then
        scanRestF fuel cs
      else
        Piece.pparind (cs.takeWhile Char.isDigit) :: scanRestF fuel (cs.dropWhile Char.isDigit)
    else
      scanRestF fuel cs

/-- The scan from positions after the leading label region; the string
length is always enough fuel. -/
def scanRest (l : List Char) : List Piece := scanRestF l.length l

/-- All matches of the label regex over the atom: at position 0 the anchored
`label` alternative is tried first. -/
def findPieces (l : List Char) : List Piece :=
  if (l.takeWhile isLabelChar).isEmpty then
    scanRest l
  else
    Piece.plabel (l.takeWhile isLabelChar) :: scanRest (l.dropWhile isLabelChar)

/-- The decoded node label (`class Symbol`). -/
structure Symbol where
  label : String
  tags : List String
  coindex : Option String
  parindex : Option String
deriving DecidableEq, Repr

/-- The match-processing body of the `for m in self._pat.finditer(label)` loop. -/
def applyPiece (s : Symbol) : Piece → Symbol
  | Piece.plabel t => { s with label := t.asString }
  | Piece.ptag t => { s with tags := s.tags ++ [t.asString] }
  | Piece.pparind t => { s with parindex := some t.asString }
  | Piece.pcoind t => { s with coindex := some t.asString }

/-- `Symbol.__init__`: start from `label` = the whole atom, empty `tags` and
absent indices, then process each regex match in order. -/
def Symbol.ofString (label : String) : Symbol :=
  List.foldl applyPiece ⟨label, [], none, none⟩ (findPieces label.toList)

/-- `Symbol.__str__`: label, each tag prefixed `-`, then `=parindex` and
`-coindex` when present. -/
def Symbol.toLabelString (s : Symbol) : String :=
  s.label ++ String.join (s.tags.map (fun t => "-" ++ t)) ++
  (match s.parindex with | some p => "=" ++ p | none => "") ++
  (match s.coindex with | some c => "-" ++ c | none => "")

/-- `class Leaf`: a terminal with its word and part-of-speech tag. -/
structure Leaf where
  word : String
  pos : String
deriving DecidableEq, Repr

/-- The possible values of a `TExpr`'s `head` field: a `Symbol`, a `Leaf`,
or Python `None` (for the labelless wrapper built for a group with no atom). -/
inductive Head where
  | hsym (s : Symbol)
  | hleaf (l : Leaf)
  | hnone
deriving DecidableEq, Repr

/-- `class TExpr`: a node holding `head`, `first_child` and `next_sibling`.
A Python child/sibling slot holds a node or `None`; `TExpr.nil` embeds the
`None` value, so `first_child`/`next_sibling` are plain `TExpr` fields. -/
inductive TExpr where
  | nil
  | mk (head : Head) (first_child : TExpr) (next_sibling : TExpr)
deriving DecidableEq, Repr

/-- `TExpr.symbol()`: the head if it is a `Symbol`. -/
def TExpr.symbol : TExpr → Option Symbol
  | TExpr.mk (Head.hsym s) _ _ => some s
  | _ => none

/-- `TExpr.leaf()`: the head if it is a `Leaf`. -/
def TExpr.leaf : TExpr → Option Leaf
  | TExpr.mk (Head.hleaf l) _ _ => some l
  | _ => none

/-- The assignment `head.next_sibling = tail` performed by the reduce loop. -/
def TExpr.setNS : TExpr → TExpr → TExpr
  | TExpr.nil, _ => TExpr.nil
  | TExpr.mk h fc _, ns => TExpr.mk h fc ns

/-- Lexer tokens (`LPAREN_TOKEN`, `RPAREN_TOKEN`, `STRING_TOKEN` with value). -/
inductive Token where
  | lparen
  | rparen
  | atom (s : String)
deriving DecidableEq, Repr

/-- Items on the parser stack: a `(` token, a string token, or a built tree. -/
inductive SItem where
  | lp
  | sstr (s : String)
  | stree (t : TExpr)
deriving DecidableEq, Repr

/-- Python raises `IndexError` when `stack[-k]` is accessed out of range;
there is no other failure in `parse` (and no `UnbalancedParenthesesError`
anywhere in the source). -/
inductive PErr where
  | indexError
deriving DecidableEq, Repr

/-- The `while not istok(stack[-1], LPAREN_TOKEN)` reduce loop of `parse`:
pop items down to the matching `(`; a popped string atom (re)sets the
pending node `tx`, taking the *current* `tail` as its `first_child`; a
popped tree is linked in front of `tail` through its `next_sibling` field.
When the `(` is reached and no atom was seen, a labelless wrapper
`TExpr(None, tail, None)` is built.  `none` models the `IndexError` raised
by `stack[-1]` on an empty stack.  The stack is modelled with its top at
the head of the list. -/
def popFrame : List SItem → Option TExpr → TExpr → Option (TExpr × List SItem)
  | [], _, _ => none
  | SItem.lp :: rest, tx, tail =>
      some (tx.getD (TExpr.mk Head.hnone tail TExpr.nil), rest)
  | SItem.sstr s :: rest, _, tail =>
      popFrame rest (some (TExpr.mk (Head.hsym (Symbol.ofString s)) tail TExpr.nil)) tail
  | SItem.stree t :: rest, tx, tail =>
      popFrame rest tx (t.setNS tail)

/-- Outcome of handling one `)` token. -/
inductive RpRes where
  | push (t : TExpr) (rest : List SItem)     -- Terminal reduction: always pushed back
  | reduced (t : TExpr) (rest : List SItem)  -- general reduction: yielded if `rest` is empty
  | err                                      -- Python `IndexError`
deriving DecidableEq, Repr

/-- Handling of a `)` token, mirroring the source's short-circuit tests on
`stack[-1]`, `stack[-2]`, `stack[-3]`: the `[..., '(', STRING, STRING]`
shape is fused into a Terminal (`pos` = first atom, `word` = second atom);
everything else goes through the general reduce loop.  Out-of-range stack
accesses yield `RpRes.err`. -/
def rparenStep : List SItem → RpRes
  | [] => RpRes.err                              -- stack[-1] underflows
  | [SItem.sstr _] => RpRes.err                  -- stack[-2] underflows
  | [SItem.sstr _, SItem.sstr _] => RpRes.err    -- stack[-3] underflows
  | SItem.sstr w :: SItem.sstr p :: SItem.lp :: rest =>
      RpRes.push (TExpr.mk (Head.hleaf ⟨w, p⟩) TExpr.nil TExpr.nil) rest
  | st =>
      match popFrame st none TExpr.nil with
      | none => RpRes.err
      | some (t, rest) => RpRes.reduced t rest

/-- The main loop of `parse` over the token stream: returns the trees
yielded in order, `some indexError` if the loop aborted on an exception,
and the final stack (leftover unmatched `(` frames are silently discarded
when the token stream ends). -/
def parseSteps : List SItem → List Token → List TExpr × Option PErr × List SItem
  | stack, [] => ([], none, stack)
  | stack, Token.lparen :: ts => parseSteps (SItem.lp :: stack) ts
  | stack, Token.atom s :: ts => parseSteps (SItem.sstr s :: stack) ts
  | stack, Token.rparen :: ts =>
      match rparenStep stack with
      | RpRes.err => ([], some PErr.indexError, stack)
      | RpRes.push t rest => parseSteps (SItem.stree t :: rest) ts
      | RpRes.reduced t rest =>
          if rest.isEmpty then
            match parseSteps [] ts with
            | (trees, e, fin) => (t :: trees, e, fin)
          else
            parseSteps (SItem.stree t :: rest) ts

/-- `parse` on a token stream, starting from an empty stack. -/
def parse (ts : List Token) : List TExpr × Option PErr × List SItem :=
  parseSteps [] ts

/-- `traverse` restricted to a sibling chain: process each node of the chain
in turn (`pre`, then the node's children, then `post`), threading the
state.  This is the `for c in tx.children(): state = traverse(c, ...)`
loop together with the recursive call, written as one structural
recursion. -/
def traverseC {σ : Type} (pre post : TExpr → σ → σ) : TExpr → σ → σ
  | TExpr.nil, st => st
  | TExpr.mk h fc ns, st =>
      traverseC pre post ns
        (post (TExpr.mk h fc ns) (traverseC pre post fc (pre (TExpr.mk h fc ns) st)))

/-- `traverse(tx, pre, post, state)`: `pre` on the node, traverse its
children left to right, `post` on the node.  (A bare `TExpr.nil` is never
traversed by the source.) -/
def traverse {σ : Type} (pre post : TExpr → σ → σ) (tx : TExpr) (st : σ) : σ :=
  match tx with
  | TExpr.nil => st
  | TExpr.mk h fc ns =>
      post (TExpr.mk h fc ns) (traverseC pre post fc (pre (TExpr.mk h fc ns) st))

/-- A produced span: `(label, begin, end)`. -/
abbrev SpanT := String × Nat × Nat

/-- The state threaded by `all_spans`: `(spans, stack, position, count)`.
The Python `stack` (a list used with `append`/`pop` at its end) is
modelled with its top at the head. -/
abbrev ASt := List (Nat × SpanT) × List (Nat × Nat) × Nat × Nat

/-- The `pre` hook of `all_spans`: push `(count, begin)` and bump the
counter. -/
def spansPre (_ : TExpr) (st : ASt) : ASt :=
  match st with
  | (sp, stk, b, c) => (sp, (c, b) :: stk, b, c + 1)

/-- The `post` hook of `all_spans`: pop `(num, begin)`; a Terminal with tag
other than `-NONE-` sets `end = begin + 1`; the node's label is the leaf
tag, or `str(symbol)` for a `Symbol` head, or `None` for a labelless
wrapper; a truthy (non-empty) label appends `(num, (label, begin, end))`.
(The `pop` on an empty stack never happens when the hooks are used by
`traverse`; it is given the vacuous result `st` here.) -/
def spansPost (t : TExpr) (st : ASt) : ASt :=
  match st with
  | (sp, [], e, c) => (sp, [], e, c)
  | (sp, (num, b) :: stk, e, c) =>
      let e' : Nat :=
        match t.leaf with
        | some l => if l.pos ≠ "-NONE-" then b + 1 else e
        | none => e
      let lab : Option String :=
        match t.leaf with
        | some l => if l.pos ≠ "" then some l.pos else none
        | none =>
          match t.symbol with
          | some s => if s.toLabelString ≠ "" then some s.toLabelString else none
          | none => none
      match lab with
      | some L => (sp ++ [(num, (L, b, e'))], stk, e', c)
      | none => (sp, stk, e', c)

/-- The comparison used by `spans.sort()` on `(num, (label, begin, end))`
tuples: lexicographic, numbers first, then label (string order), begin,
end. -/
def pairLe (a b : Nat × SpanT) : Prop :=
  a.1 < b.1 ∨ (a.1 = b.1 ∧
    (a.2.1 < b.2.1 ∨ (a.2.1 = b.2.1 ∧
      (a.2.2.1 < b.2.2.1 ∨ (a.2.2.1 = b.2.2.1 ∧ a.2.2.2 ≤ b.2.2.2)))))

instance : DecidableRel pairLe := fun a b =>
  inferInstanceAs (Decidable
    (a.1 < b.1 ∨ (a.1 = b.1 ∧
      (a.2.1 < b.2.1 ∨ (a.2.1 = b.2.1 ∧
        (a.2.2.1 < b.2.2.1 ∨ (a.2.2.1 = b.2.2.1 ∧ a.2.2.2 ≤ b.2.2.2)))))))

/-- `all_spans(tx)`: run the traversal from `([], [], 0, 0)`, sort the
collected `(num, span)` pairs, and strip the numbers. -/
def all_spans (tx : TExpr) : List SpanT :=
  match traverse spansPre spansPost tx ([], [], 0, 0) with
  | (sp, _, _, _) => (List.insertionSort pairLe sp).map (fun p => p.2)

/-!  Reference functions describing what the traversal computes: the end
position of a node / sibling chain, node counts, and the `(num, span)`
pairs in post-order (as accumulated) and in pre-order (as numbered). -/

/-- Final value of the running terminal position after traversing a sibling
chain starting at position `b`: a Terminal with tag other than `-NONE-`
advances the position to its begin plus one, any other node leaves it at
whatever its children produced. -/
def endPosC : TExpr → Nat → Nat
  | TExpr.nil, b => b
  | TExpr.mk (Head.hleaf l) fc ns, b =>
      endPosC ns (if l.pos ≠ "-NONE-" then b + 1 else endPosC fc b)
  | TExpr.mk (Head.hsym _) fc ns, b => endPosC ns (endPosC fc b)
  | TExpr.mk Head.hnone fc ns, b => endPosC ns (endPosC fc b)

/-- End position of a single node (its own `next_sibling` is not followed). -/
def endPosN : TExpr → Nat → Nat
  | TExpr.nil, b => b
  | TExpr.mk (Head.hleaf l) fc _, b => if l.pos ≠ "-NONE-" then b + 1 else endPosC fc b
  | TExpr.mk (Head.hsym _) fc _, b => endPosC fc b
  | TExpr.mk Head.hnone fc _, b => endPosC fc b

/-- Number of nodes in a sibling chain (all of them are numbered by the
traversal counter, whether or not they emit a span). -/
def sizeC : TExpr → Nat
  | TExpr.nil => 0
  | TExpr.mk _ fc ns => 1 + sizeC fc + sizeC ns

/-- Number of nodes of a single node's subtree. -/
def sizeN : TExpr → Nat
  | TExpr.nil => 0
  | TExpr.mk _ fc _ => 1 + sizeC fc

/-- The label a node contributes, if truthy: the leaf tag, or
`str(symbol)`; a labelless wrapper (or an empty label string) contributes
nothing. -/
def emitLabel : TExpr → Option String
  | TExpr.nil => none
  | TExpr.mk (Head.hleaf l) _ _ => if l.pos ≠ "" then some l.pos else none
  | TExpr.mk (Head.hsym s) _ _ =>
      if s.toLabelString ≠ "" then some s.toLabelString else none
  | TExpr.mk Head.hnone _ _ => none

/-- The `(num, span)` entry a node appends (empty if its label is not
truthy), with `num` the node's pre-order number. -/
def emitted (t : TExpr) (b num : Nat) : List (Nat × SpanT) :=
  match emitLabel t with
  | some L => [(num, (L, b, endPosN t b))]
  | none => []

/-- The `(num, span)` pairs of a sibling chain in post-order (the order the
traversal appends them), numbering nodes in pre-order from `c`, with the
chain starting at position `b`. -/
def postC : TExpr → Nat → Nat → List (Nat × SpanT)
  | TExpr.nil, _, _ => []
  | TExpr.mk h fc ns, b, c =>
      (postC fc b (c + 1) ++ emitted (TExpr.mk h fc ns) b c)
        ++ postC ns (endPosN (TExpr.mk h fc ns) b) (c + sizeN (TExpr.mk h fc ns))

/-- The `(num, span)` pairs of a sibling chain listed in pre-order. -/
def preC : TExpr → Nat → Nat → List (Nat × SpanT)
  | TExpr.nil, _, _ => []
  | TExpr.mk h fc ns, b, c =>
      (emitted (TExpr.mk h fc ns) b c ++ preC fc b (c + 1))
        ++ preC ns (endPosN (TExpr.mk h fc ns) b) (c + sizeN (TExpr.mk h fc ns))

/-- Post-order pairs of a single node's subtree. -/
def postN : TExpr → Nat → Nat → List (Nat × SpanT)
  | TExpr.nil, _, _ => []
  | TExpr.mk h fc ns, b, c => postC fc b (c + 1) ++ emitted (TExpr.mk h fc ns) b c

/-- Pre-order pairs of a single node's subtree. -/
def preN : TExpr → Nat → Nat → List (Nat × SpanT)
  | TExpr.nil, _, _ => []
  | TExpr.mk h fc ns, b, c => emitted (TExpr.mk h fc ns) b c ++ preC fc b (c + 1)

/-- The spans of a tree in pre-order (depth-first, parents first,
left-to-right): the order `all_spans` actually produces. -/
def preSpans (t : TExpr) : List SpanT := (preN t 0 0).map (fun p => p.2)

theorem endPosC_mk (h : Head) (fc ns : TExpr) (b : Nat) :
    endPosC (TExpr.mk h fc ns) b = endPosC ns (endPosN (TExpr.mk h fc ns) b) := by
  cases h <;> rfl

theorem sizeN_mk (h : Head) (fc ns : TExpr) :
    sizeN (TExpr.mk h fc ns) = 1 + sizeC fc := rfl

/-- Applying the `post` hook of `all_spans` to a node whose children have
just been traversed (position `endPosC fc b`, top of the stack holding the
node's `(num, begin)`). -/
theorem spansPost_closed (h : Head) (fc ns : TExpr)
    (sp : List (Nat × SpanT)) (num b : Nat) (stk : List (Nat × Nat)) (c : Nat) :
    spansPost (TExpr.mk h fc ns) (sp, (num, b) :: stk, endPosC fc b, c)
      = (sp ++ emitted (TExpr.mk h fc ns) b num, stk,
         endPosN (TExpr.mk h fc ns) b, c) := by
  cases h with
  | hsym s =>
      simp only [spansPost, TExpr.leaf, TExpr.symbol, emitted, emitLabel, endPosN]
      by_cases hs : s.toLabelString ≠ "" <;> simp [hs]
  | hleaf l =>
      simp only [spansPost, TExpr.leaf, TExpr.symbol, emitted, emitLabel, endPosN]
      by_cases hp : l.pos ≠ "-NONE-" <;> by_cases he : l.pos ≠ "" <;> simp [hp, he]
  | hnone =>
      simp [spansPost, TExpr.leaf, TExpr.symbol, emitted, emitLabel, endPosN]

/-- What the traversal of a sibling chain does to the `all_spans` state:
append the chain's post-order pairs, leave the stack alone, advance the
position to the chain's end, and advance the counter by the node count. -/
theorem traverseC_spans (ch : TExpr) : ∀ (sp : List (Nat × SpanT))
    (stk : List (Nat × Nat)) (b c : Nat),
    traverseC spansPre spansPost ch (sp, stk, b, c)
      = (sp ++ postC ch b c, stk, endPosC ch b, c + sizeC ch) := by
  induction ch with
  | nil => intro sp stk b c; simp [traverseC, postC, endPosC, sizeC]
  | mk h fc ns ihfc ihns =>
      intro sp stk b c
      rw [traverseC]
      have hpre : spansPre (TExpr.mk h fc ns) (sp, stk, b, c)
          = (sp, (c, b) :: stk, b, c + 1) := rfl
      rw [hpre, ihfc, spansPost_closed, ihns, endPosC_mk]
      simp only [postC, sizeC, sizeN_mk, List.append_assoc]
      simp [Nat.add_assoc]

/-- Traversing a whole tree from the initial state collects the post-order
pairs with pre-order numbers. -/
theorem traverse_spans (t : TExpr) :
    traverse spansPre spansPost t ([], [], 0, 0)
      = (postN t 0 0, [], endPosN t 0, sizeN t) := by
  cases t with
  | nil => rfl
  | mk h fc ns =>
      have h1 : traverse spansPre spansPost (TExpr.mk h fc ns) ([], [], 0, 0)
          = spansPost (TExpr.mk h fc ns)
              (traverseC spansPre spansPost fc ([], [(0, 0)], 0, 1)) := rfl
      rw [h1, traverseC_spans, List.nil_append, spansPost_closed]
      rfl

/-- `all_spans` sorts exactly the post-order pairs `postN t 0 0`. -/
theorem all_spans_eq_sorted_postN (t : TExpr) :
    all_spans t = (List.insertionSort pairLe (postN t 0 0)).map (fun p => p.2) := by
  unfold all_spans
  rw [traverse_spans]

/-- The post-order pairs are a permutation of the pre-order pairs. -/
theorem postC_perm_preC (ch : TExpr) : ∀ b c, List.Perm (postC ch b c) (preC ch b c) := by
  induction ch with
  | nil => intro b c; rfl
  | mk h fc ns ihfc ihns =>
      intro b c
      simp only [postC, preC]
      refine List.Perm.append ?_ (ihns _ _)
      exact (List.perm_append_comm.trans (List.Perm.append (List.Perm.refl _) (ihfc _ _)))

theorem postN_perm_preN (t : TExpr) (b c : Nat) : List.Perm (postN t b c) (preN t b c) := by
  cases t with
  | nil => rfl
  | mk h fc ns =>
      simp only [postN, preN]
      exact List.perm_append_comm.trans (List.Perm.append (List.Perm.refl _) (postC_perm_preC _ _ _))

/-- Pre-order numbers are strictly increasing along `preC`, and lie in
`[c, c + sizeC ch)`. -/
theorem preC_nums (ch : TExpr) : ∀ b c,
    (preC ch b c).Pairwise (fun x y => x.1 < y.1) ∧
      ∀ e ∈ preC ch b c, c ≤ e.1 ∧ e.1 < c + sizeC ch := by
  induction ch with
  | nil => intro b c; simp [preC]
  | mk h fc ns ihfc ihns =>
      intro b c
      obtain ⟨hfcp, hfcb⟩ := ihfc b (c + 1)
      obtain ⟨hnsp, hnsb⟩ := ihns (endPosN (TExpr.mk h fc ns) b) (c + sizeN (TExpr.mk h fc ns))
      have hemit : ∀ e ∈ emitted (TExpr.mk h fc ns) b c, e.1 = c := by
        intro e he
        unfold emitted at he
        cases hl : emitLabel (TExpr.mk h fc ns) with
        | none => rw [hl] at he; simp at he
        | some L => rw [hl] at he; simp at he; rw [he]
      constructor
      · rw [preC]
        apply List.pairwise_append.2
        refine ⟨List.pairwise_append.2 ⟨?_, hfcp, ?_⟩, hnsp, ?_⟩
        · cases hl : emitLabel (TExpr.mk h fc ns) <;> simp [emitted, hl]
        · intro x hx y hy
          have hx1 := hemit x hx
          have := (hfcb y hy).1
          omega
        · intro x hx y hy
          have h2 := (hnsb y hy).1
          rw [sizeN_mk] at h2
          rcases List.mem_append.1 hx with hx | hx
          · have := hemit x hx; omega
          · have := (hfcb x hx).2; omega
      · intro e he
        rw [preC] at he
        simp only [sizeC]
        rcases List.mem_append.1 he with he | he
        · rcases List.mem_append.1 he with he | he
          · have := hemit e he; omega
          · have h1 := (hfcb e he).1
            have h2 := (hfcb e he).2
            omega
        · have h1 := (hnsb e he).1
          have h2 := (hnsb e he).2
          rw [sizeN_mk] at h1 h2
          omega

/-- The tuple comparison agrees with the nested lexicographic order on
`ℕ ×ₗ (String ×ₗ (ℕ ×ₗ ℕ))`, from which totality, transitivity and
antisymmetry follow. -/
theorem pairLe_iff_toLex (a b : Nat × SpanT) :
    pairLe a b ↔
      (toLex (a.1, toLex (a.2.1, toLex (a.2.2.1, a.2.2.2)))
        ≤ toLex (b.1, toLex (b.2.1, toLex (b.2.2.1, b.2.2.2)))) := by
  rw [Prod.Lex.le_iff]
  unfold pairLe
  constructor
  · rintro (h | ⟨h1, h⟩)
    · exact Or.inl h
    · refine Or.inr ⟨h1, ?_⟩
      rw [Prod.Lex.le_iff]
      rcases h with h | ⟨h2, h⟩
      · exact Or.inl h
      · refine Or.inr ⟨h2, ?_⟩
        rw [Prod.Lex.le_iff]
        rcases h with h | ⟨h3, h⟩
        · exact Or.inl h
        · exact Or.inr ⟨h3, h⟩
  · rintro (h | ⟨h1, h⟩)
    · exact Or.inl h
    · refine Or.inr ⟨h1, ?_⟩
      rw [Prod.Lex.le_iff] at h
      rcases h with h | ⟨h2, h⟩
      · exact Or.inl h
      · refine Or.inr ⟨h2, ?_⟩
        rw [Prod.Lex.le_iff] at h
        rcases h with h | ⟨h3, h⟩
        · exact Or.inl h
        · exact Or.inr ⟨h3, h⟩

instance : IsTotal (Nat × SpanT) pairLe :=
  ⟨fun a b => by
    rcases le_total
        (toLex (a.1, toLex (a.2.1, toLex (a.2.2.1, a.2.2.2))))
        (toLex (b.1, toLex (b.2.1, toLex (b.2.2.1, b.2.2.2)))) with h | h
    · exact Or.inl ((pairLe_iff_toLex a b).mpr h)
    · exact Or.inr ((pairLe_iff_toLex b a).mpr h)⟩

instance : IsTrans (Nat × SpanT) pairLe :=
  ⟨fun a b c hab hbc =>
    (pairLe_iff_toLex a c).mpr
      (le_trans ((pairLe_iff_toLex a b).mp hab) ((pairLe_iff_toLex b c).mp hbc))⟩

instance : IsAntisymm (Nat × SpanT) pairLe :=
  ⟨fun a b hab hba => by
    have h := le_antisymm ((pairLe_iff_toLex a b).mp hab) ((pairLe_iff_toLex b a).mp hba)
    have h' := toLex.injective h
    have h1 : a.1 = b.1 := congrArg Prod.fst h'
    have h2' := toLex.injective (congrArg Prod.snd h')
    have h3 : a.2.1 = b.2.1 := congrArg Prod.fst h2'
    have h4 := toLex.injective (congrArg Prod.snd h2')
    have h5 : a.2.2.1 = b.2.2.1 := congrArg Prod.fst h4
    have h6 : a.2.2.2 = b.2.2.2 := congrArg Prod.snd h4
    exact Prod.ext h1 (Prod.ext h3 (Prod.ext h5 h6))⟩

/-- A list strictly sorted on the number component is `pairLe`-sorted. -/
theorem sorted_pairLe_of_nums {l : List (Nat × SpanT)}
    (h : l.Pairwise (fun x y => x.1 < y.1)) : l.Sorted pairLe :=
  h.imp (fun hx => Or.inl hx)

/-- Sorting the post-order pairs by the tuple order recovers the pre-order
listing: the numbers are pairwise distinct, strictly increasing in
pre-order, and the two lists are permutations of each other. -/
theorem sort_postN_eq_preN (t : TExpr) :
    List.insertionSort pairLe (postN t 0 0) = preN t 0 0 := by
  apply List.eq_of_perm_of_sorted
      ((List.perm_insertionSort pairLe (postN t 0 0)).trans (postN_perm_preN t 0 0))
      (List.sorted_insertionSort pairLe (postN t 0 0))
  apply sorted_pairLe_of_nums
  cases t with
  | nil => simp [preN]
  | mk h fc ns =>
      simp only [preN]
      apply List.pairwise_append.2
      refine ⟨?_, (preC_nums fc 0 (0 + 1)).1, ?_⟩
      · cases hl : emitLabel (TExpr.mk h fc ns) <;> simp [emitted, hl]
      · intro x hx y hy
        have hx1 : x.1 = 0 := by
          unfold emitted at hx
          cases hl : emitLabel (TExpr.mk h fc ns) with
          | none => rw [hl] at hx; simp at hx
          | some L => rw [hl] at hx; simp at hx; rw [hx]
        have := ((preC_nums fc 0 (0 + 1)).2 y hy).1
        omega

/-- The three-key comparison the specification claims for `all_spans`
output: ascending begin; for equal begins, empty spans (`end = begin`)
first; for equal begin and equal emptiness, descending end. -/
def threeKeyLe (a b : SpanT) : Prop :=
  a.2.1 < b.2.1 ∨ (a.2.1 = b.2.1 ∧
    ((a.2.2 = a.2.1 ∧ b.2.2 ≠ b.2.1) ∨
      ((a.2.2 = a.2.1 ∧ b.2.2 = b.2.1) ∧ b.2.2 ≤ a.2.2) ∨
      ((a.2.2 ≠ a.2.1 ∧ b.2.2 ≠ b.2.1) ∧ b.2.2 ≤ a.2.2)))

instance : DecidableRel threeKeyLe := fun a b =>
  inferInstanceAs (Decidable
    (a.2.1 < b.2.1 ∨ (a.2.1 = b.2.1 ∧
      ((a.2.2 = a.2.1 ∧ b.2.2 ≠ b.2.1) ∨
        ((a.2.2 = a.2.1 ∧ b.2.2 = b.2.1) ∧ b.2.2 ≤ a.2.2) ∨
        ((a.2.2 ≠ a.2.1 ∧ b.2.2 ≠ b.2.1) ∧ b.2.2 ≤ a.2.2)))))

/-- Token stream of `(S (-NONE- x) (NN dog))`. -/
def egTokens : List Token :=
  [Token.lparen, Token.atom "S", Token.lparen, Token.atom "-NONE-", Token.atom "x",
   Token.rparen, Token.lparen, Token.atom "NN", Token.atom "dog", Token.rparen,
   Token.rparen]

/-- The tree that `parse` yields for `(S (-NONE- x) (NN dog))`. -/
def egTree : TExpr :=
  TExpr.mk (Head.hsym { label := "S", tags := [], coindex := none, parindex := none })
    (TExpr.mk (Head.hleaf { word := "x", pos := "-NONE-" }) TExpr.nil
      (TExpr.mk (Head.hleaf { word := "dog", pos := "NN" }) TExpr.nil TExpr.nil))
    TExpr.nil

/-- C1 (counterexample): on the parsed tree of `(S (-NONE- x) (NN dog))`,
`all_spans` returns `[(S,0,1), (-NONE-,0,0), (NN,0,1)]`, which is *not*
ordered by the claimed three-key sort: the empty span `(-NONE-,0,0)`
follows the non-empty span `(S,0,1)` of equal begin.  (`spans.sort()`
sorts by the distinct pre-order numbers prepended to the spans, so the
output is pre-order, not the three-key order.) -/
theorem claim1_counterexample :
    parse egTokens = ([egTree], none, []) ∧
    all_spans egTree = [("S", 0, 1), ("-NONE-", 0, 0), ("NN", 0, 1)] ∧
    ¬ threeKeyLe ("S", 0, 1) ("-NONE-", 0, 0) := by
  refine ⟨by decide, by decide, by decide⟩

/-- `all_spans` produces the spans in depth-first pre-order. -/
theorem all_spans_preorder (t : TExpr) : all_spans t = preSpans t := by
  rw [all_spans_eq_sorted_postN, sort_postN_eq_preN]
  rfl

/-- C1 (amended): for every tree, the sequence returned by `all_spans` is
the spans listed in depth-first pre-order — each node's span is placed
according to the node's pre-order number (ancestors before descendants,
left subtrees before right) — rather than the three-key sorted order. -/
theorem claim1_amended_preorder_output (t : TExpr) :
    all_spans t = preSpans t :=
  all_spans_preorder t

/-!  Lemmas about the label scanner, leading to the round-trip property of
`Symbol.ofString` / `Symbol.toLabelString`. -/

/-- The head of the list fails the predicate (or the list is empty). -/
def headNot (p : Char → Bool) : List Char → Prop
  | [] => True
  | c :: _ => p c = false

theorem takeWhile_append_run {p : Char → Bool} :
    ∀ {l1 l2 : List Char}, (∀ x ∈ l1, p x = true) → headNot p l2 →
      (l1 ++ l2).takeWhile p = l1 ∧ (l1 ++ l2).dropWhile p = l2 := by
  intro l1
  induction l1 with
  | nil =>
      intro l2 _ h2
      cases l2 with
      | nil => simp
      | cons c cs =>
          simp only [headNot] at h2
          simp [List.takeWhile_cons, List.dropWhile_cons, h2]
  | cons a l1 ih =>
      intro l2 h1 h2
      have ha : p a = true := h1 a (by simp)
      have hrest := ih (fun x hx => h1 x (by simp [hx])) h2
      simp [List.takeWhile_cons, List.dropWhile_cons, ha, hrest.1, hrest.2]

/-- The scanner's result does not depend on the fuel, as long as the fuel
dominates the input length. -/
theorem scanRestF_congr (f1 : Nat) : ∀ (f2 : Nat) (l : List Char),
    l.length ≤ f1 → l.length ≤ f2 → scanRestF f1 l = scanRestF f2 l := by
  induction f1 with
  | zero =>
      intro f2 l h1 _
      have hl : l = [] := List.eq_nil_of_length_eq_zero (Nat.le_zero.1 h1)
      subst hl
      cases f2 <;> rfl
  | succ f1 ih =>
      intro f2 l h1 h2
      cases l with
      | nil => cases f2 <;> rfl
      | cons c cs =>
          cases f2 with
          | zero => simp at h2
          | succ f2 =>
              simp only [List.length_cons, Nat.add_le_add_iff_right] at h1 h2
              have hdrop1 : (cs.dropWhile Char.isDigit).length ≤ f1 :=
                le_trans (List.dropWhile_sublist ..).length_le h1
              have hdrop2 : (cs.dropWhile Char.isDigit).length ≤ f2 :=
                le_trans (List.dropWhile_sublist ..).length_le h2
              have hdrop3 : (cs.dropWhile isLabelChar).length ≤ f1 :=
                le_trans (List.dropWhile_sublist ..).length_le h1
              have hdrop4 : (cs.dropWhile isLabelChar).length ≤ f2 :=
                le_trans (List.dropWhile_sublist ..).length_le h2
              simp only [scanRestF]
              by_cases hc : c = '-'
              · by_cases he : (cs.takeWhile isLabelChar).isEmpty
                · by_cases hd : (cs.takeWhile Char.isDigit).isEmpty
                  · simp [hc, he, hd, ih f2 cs h1 h2]
                  · simp [hc, he, hd, ih f2 _ hdrop1 hdrop2]
                · simp [hc, he, ih f2 _ hdrop3 hdrop4]
              · by_cases hq : c = '='
                · by_cases hd : (cs.takeWhile Char.isDigit).isEmpty
                  · simp [hc, hq, hd, ih f2 cs h1 h2]
                  · simp [hc, hq, hd, ih f2 _ hdrop1 hdrop2]
                · simp [hc, hq, ih f2 cs h1 h2]

theorem scanRestF_eq_scanRest {fuel : Nat} {l : List Char} (h : l.length ≤ fuel) :
    scanRestF fuel l = scanRest l :=
  scanRestF_congr fuel l.length l h (le_refl _)

theorem scanRest_nil : scanRest [] = [] := rfl

/-- Scanning `-tag·rest` where `tag` is a non-empty label-character run and
`rest` does not begin with a label character produces the tag match and
continues with `rest`. -/
theorem scanRest_tag {tag rest : List Char} (ht : tag ≠ [])
    (hall : ∀ c ∈ tag, isLabelChar c = true) (hrest : headNot isLabelChar rest) :
    scanRest ('-' :: (tag ++ rest)) = Piece.ptag tag :: scanRest rest := by
  obtain ⟨htw, hdw⟩ := takeWhile_append_run hall hrest
  have hne : tag.isEmpty = false := by
    cases tag with
    | nil => exact absurd rfl ht
    | cons a t => rfl
  have hsub : rest.length ≤ tag.length + rest.length := Nat.le_add_left _ _
  show scanRestF ('-' :: (tag ++ rest)).length ('-' :: (tag ++ rest)) = _
  simp [List.length_cons, scanRestF, htw, hdw, hne, scanRestF_eq_scanRest hsub]

/-- Scanning `=digits·rest` where `digits` is a non-empty digit run and
`rest` does not begin with a digit produces the parindex match. -/
theorem scanRest_parind {digits rest : List Char} (hd : digits ≠ [])
    (hall : ∀ c ∈ digits, Char.isDigit c = true) (hrest : headNot Char.isDigit rest) :
    scanRest ('=' :: (digits ++ rest)) = Piece.pparind digits :: scanRest rest := by
  obtain ⟨htw, hdw⟩ := takeWhile_append_run hall hrest
  have hne : digits.isEmpty = false := by
    cases digits with
    | nil => exact absurd rfl hd
    | cons a t => rfl
  have hsub : rest.length ≤ digits.length + rest.length := Nat.le_add_left _ _
  show scanRestF ('=' :: (digits ++ rest)).length ('=' :: (digits ++ rest)) = _
  simp [List.length_cons, scanRestF, htw, hdw, hne, scanRestF_eq_scanRest hsub]

/-- Scanning `-digits·rest` where `digits` is a non-empty digit run and
`rest` does not begin with a digit produces the coindex match (the `-tag`
alternative fails because a digit is not a label character). -/
theorem scanRest_coind {digits rest : List Char} (hd : digits ≠ [])
    (hall : ∀ c ∈ digits, Char.isDigit c = true) (hrest : headNot Char.isDigit rest) :
    scanRest ('-' :: (digits ++ rest)) = Piece.pcoind digits :: scanRest rest := by
  obtain ⟨htw, hdw⟩ := takeWhile_append_run hall hrest
  have hne : digits.isEmpty = false := by
    cases digits with
    | nil => exact absurd rfl hd
    | cons a t => rfl
  have hlab : ((digits ++ rest).takeWhile isLabelChar).isEmpty = true := by
    cases digits with
    | nil => exact absurd rfl hd
    | cons a t =>
        have hda : Char.isDigit a = true := hall a (by simp)
        have : isLabelChar a = false := by simp [isLabelChar, hda]
        simp [List.takeWhile_cons, this]
  have hsub : rest.length ≤ digits.length + rest.length := Nat.le_add_left _ _
  show scanRestF ('-' :: (digits ++ rest)).length ('-' :: (digits ++ rest)) = _
  simp [List.length_cons, scanRestF, htw, hdw, hne, hlab, scanRestF_eq_scanRest hsub]

/-- A non-empty run of label characters (as a string). -/
def runLabel (t : String) : Prop :=
  t.toList ≠ [] ∧ ∀ c ∈ t.toList, isLabelChar c = true

/-- A non-empty run of digits (as a string). -/
def runDigit (t : String) : Prop :=
  t.toList ≠ [] ∧ ∀ c ∈ t.toList, Char.isDigit c = true

/-- Well-formedness of a decoded `Symbol`: the label is a non-empty run of
label characters, every tag likewise, and the indices (when present) are
non-empty digit runs.  Every `Symbol` decoded from an atom with a valid
leading label region satisfies this. -/
def Symbol.WF (s : Symbol) : Prop :=
  runLabel s.label ∧ (∀ t ∈ s.tags, runLabel t) ∧
  (∀ p, s.parindex = some p → runDigit p) ∧
  (∀ c, s.coindex = some c → runDigit c)

/-- Shape of the pieces the scanner can produce: never a `plabel`, and the
payloads are non-empty runs of the right kind. -/
theorem scanRestF_pieces (fuel : Nat) : ∀ (l : List Char) (pc : Piece),
    pc ∈ scanRestF fuel l →
    (∀ t, pc = Piece.plabel t → False) ∧
    (∀ t, pc = Piece.ptag t → t ≠ [] ∧ ∀ c ∈ t, isLabelChar c = true) ∧
    (∀ d, pc = Piece.pparind d → d ≠ [] ∧ ∀ c ∈ d, Char.isDigit c = true) ∧
    (∀ d, pc = Piece.pcoind d → d ≠ [] ∧ ∀ c ∈ d, Char.isDigit c = true) := by
  induction fuel with
  | zero => intro l pc h; simp [scanRestF] at h
  | succ fuel ih =>
      intro l pc h
      cases l with
      | nil => simp [scanRestF] at h
      | cons c cs =>
          have hrun : ∀ (p : Char → Bool), (cs.takeWhile p).isEmpty = false →
              cs.takeWhile p ≠ [] ∧ ∀ x ∈ cs.takeWhile p, p x = true := by
            intro p hp
            refine ⟨?_, fun x hx => List.mem_takeWhile_imp hx⟩
            intro hnil
            rw [hnil] at hp
            simp at hp
          simp only [scanRestF] at h
          by_cases hc : c = '-'
          · rw [if_pos hc] at h
            by_cases he : (cs.takeWhile isLabelChar).isEmpty
            · rw [if_pos he] at h
              by_cases hd : (cs.takeWhile Char.isDigit).isEmpty
              · rw [if_pos hd] at h
                exact ih cs pc h
              · rw [if_neg hd] at h
                rcases List.mem_cons.1 h with h | h
                · subst h
                  refine ⟨by simp, by simp, by simp, ?_⟩
                  intro d hd2
                  cases hd2
                  exact hrun Char.isDigit (Bool.not_eq_true _ ▸ (by simpa using hd))
                · exact ih _ pc h
            · rw [if_neg he] at h
              rcases List.mem_cons.1 h with h | h
              · subst h
                refine ⟨by simp, ?_, by simp, by simp⟩
                intro t ht2
                cases ht2
                exact hrun isLabelChar (Bool.not_eq_true _ ▸ (by simpa using he))
              · exact ih _ pc h
          · rw [if_neg hc] at h
            by_cases hq : c = '='
            · rw [if_pos hq] at h
              by_cases hd : (cs.takeWhile Char.isDigit).isEmpty
              · rw [if_pos hd] at h
                exact ih cs pc h
              · rw [if_neg hd] at h
                rcases List.mem_cons.1 h with h | h
                · subst h
                  refine ⟨by simp, by simp, ?_, by simp⟩
                  intro d hd2
                  cases hd2
                  exact hrun Char.isDigit (Bool.not_eq_true _ ▸ (by simpa using hd))
                · exact ih _ pc h
            · rw [if_neg hq] at h
              exact ih cs pc h

theorem scanRest_pieces {l : List Char} {pc : Piece} (h : pc ∈ scanRest l) :
    (∀ t, pc = Piece.plabel t → False) ∧
    (∀ t, pc = Piece.ptag t → t ≠ [] ∧ ∀ c ∈ t, isLabelChar c = true) ∧
    (∀ d, pc = Piece.pparind d → d ≠ [] ∧ ∀ c ∈ d, Char.isDigit c = true) ∧
    (∀ d, pc = Piece.pcoind d → d ≠ [] ∧ ∀ c ∈ d, Char.isDigit c = true) :=
  scanRestF_pieces l.length l pc h

/-- Folding over pieces that contain no `plabel` leaves the `label` field
alone. -/
theorem foldl_applyPiece_label : ∀ (pieces : List Piece) (s0 : Symbol),
    (∀ t, Piece.plabel t ∉ pieces) →
    (List.foldl applyPiece s0 pieces).label = s0.label := by
  intro pieces
  induction pieces with
  | nil => intro s0 _; rfl
  | cons pc pieces ih =>
      intro s0 hno
      rw [List.foldl_cons]
      have h1 : (applyPiece s0 pc).label = s0.label := by
        cases pc with
        | plabel t => exact absurd (by simp) (hno t)
        | ptag t => rfl
        | pparind t => rfl
        | pcoind t => rfl
      rw [ih _ (fun t ht => hno t (by simp [ht])), h1]

/-- Folding pieces whose payloads are well-shaped preserves `Symbol.WF`. -/
theorem foldl_applyPiece_wf : ∀ (pieces : List Piece) (s0 : Symbol),
    (∀ pc ∈ pieces,
      (∀ t, pc = Piece.plabel t → t ≠ [] ∧ ∀ c ∈ t, isLabelChar c = true) ∧
      (∀ t, pc = Piece.ptag t → t ≠ [] ∧ ∀ c ∈ t, isLabelChar c = true) ∧
      (∀ d, pc = Piece.pparind d → d ≠ [] ∧ ∀ c ∈ d, Char.isDigit c = true) ∧
      (∀ d, pc = Piece.pcoind d → d ≠ [] ∧ ∀ c ∈ d, Char.isDigit c = true)) →
    s0.WF → (List.foldl applyPiece s0 pieces).WF := by
  intro pieces
  induction pieces with
  | nil => intro s0 _ h0; exact h0
  | cons pc pieces ih =>
      intro s0 hsh h0
      rw [List.foldl_cons]
      refine ih _ (fun q hq => hsh q (by simp [hq])) ?_
      obtain ⟨hlab, htags, hpar, hco⟩ := h0
      obtain ⟨hshl, hsht, hshp, hshc⟩ := hsh pc (by simp)
      cases pc with
      | plabel t =>
          obtain ⟨hne, hall⟩ := hshl t rfl
          exact ⟨⟨by simpa using hne, by simpa using hall⟩, htags, hpar, hco⟩
      | ptag t =>
          obtain ⟨hne, hall⟩ := hsht t rfl
          refine ⟨hlab, ?_, hpar, hco⟩
          intro u hu
          rcases List.mem_append.1 hu with hu | hu
          · exact htags u hu
          · have : u = t.asString := by simpa using hu
            subst this
            exact ⟨by simpa using hne, by simpa using hall⟩
      | pparind d =>
          obtain ⟨hne, hall⟩ := hshp d rfl
          refine ⟨hlab, htags, ?_, hco⟩
          intro p hp
          have : p = d.asString := by have h2 := hp; simp [applyPiece] at h2; exact h2.symm
          subst this
          exact ⟨by simpa using hne, by simpa using hall⟩
      | pcoind d =>
          obtain ⟨hne, hall⟩ := hshc d rfl
          refine ⟨hlab, htags, hpar, ?_⟩
          intro p hp
          have : p = d.asString := by have h2 := hp; simp [applyPiece] at h2; exact h2.symm
          subst this
          exact ⟨by simpa using hne, by simpa using hall⟩

/-- The atom has a non-empty leading run of characters free of digits,
`=`, and `-` (the test `findPieces` makes on the whole atom). -/
def hasLeadingLabel (s : String) : Bool :=
  !(s.toList.takeWhile isLabelChar).isEmpty

/-- Every `Symbol` decoded from an atom with a valid leading label region is
well-formed. -/
theorem ofString_wf {a : String} (h : hasLeadingLabel a = true) :
    (Symbol.ofString a).WF := by
  unfold Symbol.ofString findPieces
  have hne : (a.toList.takeWhile isLabelChar).isEmpty = false := by
    unfold hasLeadingLabel at h
    simpa using h
  have hrun : a.toList.takeWhile isLabelChar ≠ [] := by
    intro hnil
    rw [hnil] at hne
    simp at hne
  rw [if_neg (show ¬((a.toList.takeWhile isLabelChar).isEmpty = true) by
        rw [hne]; simp), List.foldl_cons]
  apply foldl_applyPiece_wf
  · intro pc hpc
    obtain ⟨h1, h2, h3, h4⟩ := scanRest_pieces hpc
    exact ⟨fun t ht => absurd ht (fun he => h1 t he), h2, h3, h4⟩
  · refine ⟨⟨hrun, fun c hc => List.mem_takeWhile_imp hc⟩, ?_, ?_, ?_⟩
    · intro t ht
      simp [applyPiece] at ht
    · intro p hp
      simp [applyPiece] at hp
    · intro p hp
      simp [applyPiece] at hp

/-- `String.join` concatenates the character data. -/
theorem data_foldl_append : ∀ (l : List String) (init : String),
    (l.foldl (fun r s => r ++ s) init).data = init.data ++ (l.map String.data).flatten := by
  intro l
  induction l with
  | nil => intro init; simp
  | cons a l ih =>
      intro init
      rw [List.foldl_cons, ih, List.map_cons, List.flatten_cons, String.data_append]
      simp

theorem data_join (l : List String) :
    (String.join l).data = (l.map String.data).flatten := by
  show (l.foldl (fun r s => r ++ s) "").data = _
  rw [data_foldl_append]
  rfl

/-- The character-level decomposition of `Symbol.__str__`. -/
theorem toLabelString_toList (s : Symbol) :
    s.toLabelString.toList
      = s.label.toList
        ++ ((s.tags.map (fun t => '-' :: t.toList)).flatten
        ++ ((match s.parindex with | some p => '=' :: p.toList | none => [])
        ++ (match s.coindex with | some c => '-' :: c.toList | none => []))) := by
  show (s.toLabelString).data = _
  unfold Symbol.toLabelString
  have htags : (String.join (s.tags.map (fun t => "-" ++ t))).data
      = (s.tags.map (fun t => '-' :: t.toList)).flatten := by
    rw [data_join, List.map_map]
    have hfun : (String.data ∘ fun t => "-" ++ t) = fun t : String => '-' :: t.toList := by
      funext t
      show ("-" ++ t).data = '-' :: t.data
      rw [String.data_append]
      rfl
    rw [hfun]
  have hpar : (match s.parindex with | some p => "=" ++ p | none => "").data
      = (match s.parindex with | some p => '=' :: p.toList | none => ([] : List Char)) := by
    cases s.parindex with
    | none => rfl
    | some p => show ("=" ++ p).data = '=' :: p.data; rw [String.data_append]; rfl
  have hco : (match s.coindex with | some c => "-" ++ c | none => "").data
      = (match s.coindex with | some c => '-' :: c.toList | none => ([] : List Char)) := by
    cases s.coindex with
    | none => rfl
    | some c => show ("-" ++ c).data = '-' :: c.data; rw [String.data_append]; rfl
  rw [String.data_append, String.data_append, String.data_append, htags, hpar, hco,
    List.append_assoc, List.append_assoc]
  rfl

/-- Characters of the serialized tag region. -/
def tagsChars (tags : List String) : List Char :=
  (tags.map (fun t => '-' :: t.toList)).flatten

/-- Characters of the serialized parindex region. -/
def parChars : Option String → List Char
  | some p => '=' :: p.toList
  | none => []

/-- Characters of the serialized coindex region. -/
def coChars : Option String → List Char
  | some c => '-' :: c.toList
  | none => []

/-- Pieces produced for the serialized parindex region. -/
def parPieces : Option String → List Piece
  | some p => [Piece.pparind p.toList]
  | none => []

/-- Pieces produced for the serialized coindex region. -/
def coPieces : Option String → List Piece
  | some c => [Piece.pcoind c.toList]
  | none => []

/-- The serialized tag/parindex/coindex region never begins with a label
character. -/
theorem headNot_restChars (tags : List String) (par co : Option String) :
    headNot isLabelChar (tagsChars tags ++ (parChars par ++ coChars co)) := by
  cases tags with
  | cons t ts =>
      show headNot isLabelChar (('-' :: t.toList ++ _) ++ _)
      simp only [List.cons_append]
      show isLabelChar '-' = false
      decide
  | nil =>
      cases par with
      | some p =>
          show headNot isLabelChar (([] : List Char) ++ (('=' :: p.toList) ++ _))
          simp only [List.nil_append, List.cons_append]
          show isLabelChar '=' = false
          decide
      | none =>
          cases co with
          | some c =>
              show headNot isLabelChar (([] : List Char) ++ (([] : List Char) ++ '-' :: c.toList))
              simp only [List.nil_append]
              show isLabelChar '-' = false
              decide
          | none => trivial

/-- The coindex region never begins with a digit. -/
theorem headNot_digit_coChars (co : Option String) :
    headNot Char.isDigit (coChars co) := by
  cases co with
  | some c => show Char.isDigit '-' = false; decide
  | none => trivial

/-- Scanning the serialized tags/parindex/coindex region yields exactly the
corresponding pieces, in order. -/
theorem scanRest_restChars : ∀ (tags : List String), (∀ t ∈ tags, runLabel t) →
    ∀ (par co : Option String),
    (∀ p, par = some p → runDigit p) → (∀ c, co = some c → runDigit c) →
    scanRest (tagsChars tags ++ (parChars par ++ coChars co))
      = tags.map (fun t => Piece.ptag t.toList) ++ (parPieces par ++ coPieces co) := by
  intro tags
  induction tags with
  | cons t ts ih =>
      intro htags par co hpar hco
      obtain ⟨htne, htall⟩ := htags t (by simp)
      have hstep : tagsChars (t :: ts) ++ (parChars par ++ coChars co)
          = '-' :: (t.toList ++ (tagsChars ts ++ (parChars par ++ coChars co))) := by
        simp [tagsChars, List.append_assoc]
      rw [hstep, scanRest_tag htne htall (headNot_restChars ts par co),
        ih (fun u hu => htags u (by simp [hu])) par co hpar hco]
      simp
  | nil =>
      intro _ par co hpar hco
      cases par with
      | some p =>
          obtain ⟨hpne, hpall⟩ := hpar p rfl
          have hstep : tagsChars [] ++ (parChars (some p) ++ coChars co)
              = '=' :: (p.toList ++ coChars co) := by
            simp [tagsChars, parChars]
          rw [hstep, scanRest_parind hpne hpall (headNot_digit_coChars co)]
          cases co with
          | some c =>
              obtain ⟨hcne, hcall⟩ := hco c rfl
              have hstep2 : coChars (some c) = '-' :: (c.toList ++ []) := by
                simp [coChars]
              rw [hstep2, scanRest_coind hcne hcall (show headNot Char.isDigit [] from trivial)]
              simp [scanRest_nil, parPieces, coPieces]
          | none => simp [scanRest_nil, coChars, parPieces, coPieces]
      | none =>
          cases co with
          | some c =>
              obtain ⟨hcne, hcall⟩ := hco c rfl
              have hstep : tagsChars [] ++ (parChars none ++ coChars (some c))
                  = '-' :: (c.toList ++ []) := by
                simp [tagsChars, parChars, coChars]
              rw [hstep, scanRest_coind hcne hcall (show headNot Char.isDigit [] from trivial)]
              simp [scanRest_nil, parPieces, coPieces]
          | none => simp [scanRest_nil, tagsChars, parChars, coChars, parPieces, coPieces]

/-- Folding a run of tag pieces appends the tags in order. -/
theorem foldl_applyPiece_ptags : ∀ (ts : List (List Char)) (s0 : Symbol),
    List.foldl applyPiece s0 (ts.map Piece.ptag)
      = { s0 with tags := s0.tags ++ ts.map List.asString } := by
  intro ts
  induction ts with
  | nil => intro s0; simp
  | cons t ts ih =>
      intro s0
      rw [List.map_cons, List.foldl_cons]
      show List.foldl applyPiece { s0 with tags := s0.tags ++ [t.asString] } (ts.map Piece.ptag) = _
      rw [ih]
      simp

/-- Serialize-then-decode is the identity on well-formed symbols. -/
theorem ofString_toLabelString {s : Symbol} (h : s.WF) :
    Symbol.ofString s.toLabelString = s := by
  obtain ⟨⟨hlne, hlall⟩, htags, hpar, hco⟩ := h
  unfold Symbol.ofString
  have hdecomp : s.toLabelString.toList
      = s.label.toList ++ (tagsChars s.tags ++ (parChars s.parindex ++ coChars s.coindex)) := by
    rw [toLabelString_toList]
    cases s.parindex <;> cases s.coindex <;> rfl
  rw [hdecomp]
  unfold findPieces
  obtain ⟨htw, hdw⟩ :=
    takeWhile_append_run (p := isLabelChar) hlall
      (headNot_restChars s.tags s.parindex s.coindex)
  rw [htw, hdw]
  have hcond : (s.label.toList.isEmpty = true) = False := by
    cases hl : s.label.toList with
    | nil => exact absurd hl hlne
    | cons a l => simp
  rw [if_neg (by rw [hcond]; exact id)]
  rw [scanRest_restChars s.tags htags s.parindex s.coindex hpar hco]
  rw [List.foldl_cons]
  have hinit : applyPiece ⟨s.toLabelString, [], none, none⟩ (Piece.plabel s.label.toList)
      = ⟨s.label, [], none, none⟩ := by
    have ha : s.label.data.asString = s.label := String.asString_toList s.label
    simp [applyPiece, ha]
  rw [hinit]
  rw [show s.tags.map (fun t => Piece.ptag t.toList)
        = (s.tags.map String.toList).map Piece.ptag from by rw [List.map_map]; rfl]
  rw [List.foldl_append, foldl_applyPiece_ptags]
  have htags_id : (s.tags.map String.toList).map List.asString = s.tags := by
    rw [List.map_map]
    have hfun : (List.asString ∘ String.toList) = @id String := by
      funext t
      exact String.asString_toList t
    rw [hfun, List.map_id]
  rw [List.foldl_append]
  have hs : s = (⟨s.label, s.tags, s.coindex, s.parindex⟩ : Symbol) := rfl
  cases hp : s.parindex with
  | some p =>
      cases hc : s.coindex with
      | some c =>
          show (⟨s.label, [] ++ (s.tags.map String.toList).map List.asString,
              some (c.toList.asString), some (p.toList.asString)⟩ : Symbol) = s
          rw [List.nil_append, htags_id, String.asString_toList, String.asString_toList]
          conv_rhs => rw [hs, hp, hc]
      | none =>
          show (⟨s.label, [] ++ (s.tags.map String.toList).map List.asString,
              none, some (p.toList.asString)⟩ : Symbol) = s
          rw [List.nil_append, htags_id, String.asString_toList]
          conv_rhs => rw [hs, hp, hc]
  | none =>
      cases hc : s.coindex with
      | some c =>
          show (⟨s.label, [] ++ (s.tags.map String.toList).map List.asString,
              some (c.toList.asString), none⟩ : Symbol) = s
          rw [List.nil_append, htags_id, String.asString_toList]
          conv_rhs => rw [hs, hp, hc]
      | none =>
          show (⟨s.label, [] ++ (s.tags.map String.toList).map List.asString,
              none, none⟩ : Symbol) = s
          rw [List.nil_append, htags_id]
          conv_rhs => rw [hs, hp, hc]

/-- C5 (counterexample): the atom `-NONE-` has no valid leading label
region, yet decoding it does not fail — `Symbol.__init__` has no failure
path at all (there is no `MalformedLabelError` anywhere in the source); it
returns a `Symbol` whose `label` field is still the whole original atom
(with `NONE` parsed as a tag). -/
theorem claim5_counterexample :
    hasLeadingLabel "-NONE-" = false ∧
    Symbol.ofString "-NONE-" =
      { label := "-NONE-", tags := ["NONE"], coindex := none, parindex := none } :=
  ⟨by decide, by decide⟩

/-- When the atom has no leading label region, the `label` group of the
regex never matches, so the initial `self.label = label` assignment is
never overwritten. -/
theorem ofString_label_of_no_leading {a : String} (h : hasLeadingLabel a = false) :
    (Symbol.ofString a).label = a := by
  unfold Symbol.ofString findPieces
  have hem : (a.toList.takeWhile isLabelChar).isEmpty = true := by
    unfold hasLeadingLabel at h
    simpa using h
  rw [if_pos hem]
  exact foldl_applyPiece_label _ _ (fun t ht => (scanRest_pieces ht).1 t rfl)

/-- C5 (amended): for every atom string with no non-empty leading run of
characters free of digits, `=` and `-`, decoding succeeds anyway and
leaves the `Symbol`'s `label` field equal to the entire original atom
(the anchored label group of the regex never matches, so the initial
assignment `self.label = label` is never overwritten); no error of any
kind is raised. -/
theorem claim5_amended_label_kept (a : String) (h : hasLeadingLabel a = false) :
    (Symbol.ofString a).label = a :=
  ofString_label_of_no_leading h

theorem claim5_amended_label_kept_witness :
    hasLeadingLabel "123" = false ∧ (Symbol.ofString "123").label = "123" :=
  ⟨by decide, claim5_amended_label_kept "123" (by decide)⟩

/-- C6: for every atom with a valid leading label region (which is the case
for every well-formed treebank label), decoding it, serializing the
resulting `Symbol` via `Symbol.__str__` (label, tags each prefixed `-`,
then `=parindex`, then `-coindex`), and decoding again yields an equal
`Symbol`: same label, same tags in the same order, same coindex and
parindex. -/
theorem claim6_symbol_roundtrip (a : String) (h : hasLeadingLabel a = true) :
    Symbol.ofString ((Symbol.ofString a).toLabelString) = Symbol.ofString a :=
  ofString_toLabelString (ofString_wf h)

theorem claim6_symbol_roundtrip_witness :
    hasLeadingLabel "NP-SBJ=2-1" = true ∧
    Symbol.ofString ((Symbol.ofString "NP-SBJ=2-1").toLabelString)
      = Symbol.ofString "NP-SBJ=2-1" :=
  ⟨by decide, claim6_symbol_roundtrip "NP-SBJ=2-1" (by decide)⟩

/-!  `remove_empty_elements`.  The Python function works in place: the
`post` hook tags each node `q_none` (a `-NONE-` Terminal, or a node all of
whose children were tagged `q_none`) or `q_ok`, and relinks each surviving
node's children to the `q_ok` sublist.  A `q_none` subtree is never
mutated (its links are only dropped from its parent), and the root is
never dropped: when everything below the root dies — or the root is a
Terminal — the tree is left exactly as it was.  The functional translation
below returns the tree value the object graph denotes afterwards. -/

/-- Process a sibling chain: drop `-NONE-` Terminals and nodes whose
processed child chain is empty, relink the survivors. -/
def removeChain : TExpr → TExpr
  | TExpr.nil => TExpr.nil
  | TExpr.mk (Head.hleaf l) fc ns =>
      if l.pos = "-NONE-" then removeChain ns
      else TExpr.mk (Head.hleaf l) fc (removeChain ns)
  | TExpr.mk (Head.hsym s) fc ns =>
      match removeChain fc with
      | TExpr.nil => removeChain ns
      | TExpr.mk h2 fc2 ns2 => TExpr.mk (Head.hsym s) (TExpr.mk h2 fc2 ns2) (removeChain ns)
  | TExpr.mk Head.hnone fc ns =>
      match removeChain fc with
      | TExpr.nil => removeChain ns
      | TExpr.mk h2 fc2 ns2 => TExpr.mk Head.hnone (TExpr.mk h2 fc2 ns2) (removeChain ns)

/-- `remove_empty_elements(tx)`: the root is special — a Terminal root, or a
root whose children all die, is left completely unchanged (the source only
ever relinks `first_child` of nodes with at least one surviving child). -/
def remove_empty_elements : TExpr → TExpr
  | TExpr.nil => TExpr.nil
  | TExpr.mk (Head.hleaf l) fc ns => TExpr.mk (Head.hleaf l) fc ns
  | TExpr.mk (Head.hsym s) fc ns =>
      match removeChain fc with
      | TExpr.nil => TExpr.mk (Head.hsym s) fc ns
      | TExpr.mk h2 fc2 ns2 => TExpr.mk (Head.hsym s) (TExpr.mk h2 fc2 ns2) ns
  | TExpr.mk Head.hnone fc ns =>
      match removeChain fc with
      | TExpr.nil => TExpr.mk Head.hnone fc ns
      | TExpr.mk h2 fc2 ns2 => TExpr.mk Head.hnone (TExpr.mk h2 fc2 ns2) ns

/-- A sibling chain contains a surviving node: a Terminal with tag other
than `-NONE-`, or a node one of whose children survives. -/
def aliveC : TExpr → Bool
  | TExpr.nil => false
  | TExpr.mk (Head.hleaf l) _ ns => decide (l.pos ≠ "-NONE-") || aliveC ns
  | TExpr.mk (Head.hsym _) fc ns => aliveC fc || aliveC ns
  | TExpr.mk Head.hnone fc ns => aliveC fc || aliveC ns

/-- A single node survives `remove_empty_elements`. -/
def aliveN : TExpr → Bool
  | TExpr.nil => false
  | TExpr.mk (Head.hleaf l) _ _ => decide (l.pos ≠ "-NONE-")
  | TExpr.mk (Head.hsym _) fc _ => aliveC fc
  | TExpr.mk Head.hnone fc _ => aliveC fc

/-- Heads of a sibling chain in depth-first pre-order. -/
def headsC : TExpr → List Head
  | TExpr.nil => []
  | TExpr.mk h fc ns => h :: (headsC fc ++ headsC ns)

/-- Heads of a node's subtree in depth-first pre-order. -/
def headsN : TExpr → List Head
  | TExpr.nil => []
  | TExpr.mk h fc _ => h :: headsC fc

/-- Heads of the surviving nodes of a chain, in pre-order. -/
def aliveHeadsC : TExpr → List Head
  | TExpr.nil => []
  | TExpr.mk (Head.hleaf l) _ ns =>
      (if l.pos ≠ "-NONE-" then [Head.hleaf l] else []) ++ aliveHeadsC ns
  | TExpr.mk (Head.hsym s) fc ns =>
      (if aliveC fc then Head.hsym s :: aliveHeadsC fc else []) ++ aliveHeadsC ns
  | TExpr.mk Head.hnone fc ns =>
      (if aliveC fc then Head.hnone :: aliveHeadsC fc else []) ++ aliveHeadsC ns

/-- Heads of the surviving nodes of a node's subtree, in pre-order. -/
def aliveHeadsN : TExpr → List Head
  | TExpr.nil => []
  | TExpr.mk (Head.hleaf l) _ _ => if l.pos ≠ "-NONE-" then [Head.hleaf l] else []
  | TExpr.mk (Head.hsym s) fc _ => if aliveC fc then Head.hsym s :: aliveHeadsC fc else []
  | TExpr.mk Head.hnone fc _ => if aliveC fc then Head.hnone :: aliveHeadsC fc else []

/-- Well-formedness of a sibling chain, as guaranteed for parsed trees:
Terminals carry a non-empty tag and have no children, `Symbol` heads
render to a non-empty label string. -/
def wfC : TExpr → Bool
  | TExpr.nil => true
  | TExpr.mk (Head.hleaf l) fc ns =>
      decide (l.pos ≠ "") && decide (fc = TExpr.nil) && wfC ns
  | TExpr.mk (Head.hsym s) fc ns =>
      decide (s.toLabelString ≠ "") && wfC fc && wfC ns
  | TExpr.mk Head.hnone fc ns => wfC fc && wfC ns

/-- Well-formedness of a single tree (its own `next_sibling` is ignored). -/
def wfN : TExpr → Bool
  | TExpr.nil => false
  | TExpr.mk (Head.hleaf l) fc _ => decide (l.pos ≠ "") && decide (fc = TExpr.nil)
  | TExpr.mk (Head.hsym s) fc _ => decide (s.toLabelString ≠ "") && wfC fc
  | TExpr.mk Head.hnone fc _ => wfC fc

theorem aliveHeadsC_of_dead : ∀ (ch : TExpr), aliveC ch = false → aliveHeadsC ch = [] := by
  intro ch
  induction ch with
  | nil => intro _; rfl
  | mk h fc ns ihfc ihns =>
      intro hd
      cases h with
      | hleaf l =>
          simp only [aliveC, Bool.or_eq_false_iff, decide_eq_false_iff_not, not_not] at hd
          simp [aliveHeadsC, hd.1, ihns hd.2]
      | hsym s =>
          simp only [aliveC, Bool.or_eq_false_iff] at hd
          simp [aliveHeadsC, hd.1, ihns hd.2]
      | hnone =>
          simp only [aliveC, Bool.or_eq_false_iff] at hd
          simp [aliveHeadsC, hd.1, ihns hd.2]

/-- Key lemma: on well-formed chains, `removeChain` returns `nil` exactly
when nothing survives, and otherwise its result's pre-order heads are the
surviving nodes' heads. -/
theorem removeChain_spec : ∀ (ch : TExpr), wfC ch = true →
    (aliveC ch = false → removeChain ch = TExpr.nil) ∧
    (aliveC ch = true →
      removeChain ch ≠ TExpr.nil ∧ headsC (removeChain ch) = aliveHeadsC ch) := by
  intro ch
  induction ch with
  | nil => intro _; exact ⟨fun _ => rfl, fun h => by simp [aliveC] at h⟩
  | mk h fc ns ihfc ihns =>
      intro hwf
      cases h with
      | hleaf l =>
          simp only [wfC, Bool.and_eq_true, decide_eq_true_eq] at hwf
          obtain ⟨⟨hpos, hfcnil⟩, hwfns⟩ := hwf
          subst hfcnil
          by_cases hn : l.pos = "-NONE-"
          · constructor
            · intro hd
              simp only [aliveC, Bool.or_eq_false_iff, decide_eq_false_iff_not, not_not] at hd
              simp [removeChain, hn, (ihns hwfns).1 hd.2]
            · intro ha
              have ha2 : aliveC ns = true := by simpa [aliveC, hn] using ha
              obtain ⟨hne, hh⟩ := (ihns hwfns).2 ha2
              refine ⟨by simpa [removeChain, hn] using hne, ?_⟩
              simp [removeChain, hn, hh, aliveHeadsC]
          · constructor
            · intro hd
              simp only [aliveC, Bool.or_eq_false_iff, decide_eq_false_iff_not, not_not] at hd
              exact absurd hd.1 hn
            · intro _
              refine ⟨by simp [removeChain, hn], ?_⟩
              simp only [removeChain, hn, if_false, headsC, aliveHeadsC]
              by_cases hans : aliveC ns = true
              · simp [hn, (ihns hwfns).2 hans |>.2, headsC]
              · have hd : aliveC ns = false := by simpa using hans
                simp [hn, (ihns hwfns).1 hd, aliveHeadsC_of_dead ns hd, headsC]
      | hsym s =>
          simp only [wfC, Bool.and_eq_true, decide_eq_true_eq] at hwf
          obtain ⟨⟨hlab, hwffc⟩, hwfns⟩ := hwf
          constructor
          · intro hd
            simp only [aliveC, Bool.or_eq_false_iff] at hd
            have h1 := (ihfc hwffc).1 hd.1
            have h2 := (ihns hwfns).1 hd.2
            simp [removeChain, h1, h2]
          · intro ha
            simp only [aliveC, Bool.or_eq_true] at ha
            by_cases hafc : aliveC fc = true
            · obtain ⟨hne, hh⟩ := (ihfc hwffc).2 hafc
              have hstep : removeChain (TExpr.mk (Head.hsym s) fc ns)
                  = TExpr.mk (Head.hsym s) (removeChain fc) (removeChain ns) := by
                cases hrc : removeChain fc with
                | nil => exact absurd hrc hne
                | mk h2 fc2 ns2 => simp [removeChain, hrc]
              constructor
              · simp [hstep]
              · rw [hstep]
                simp only [headsC, aliveHeadsC, hafc, if_true]
                rw [hh]
                by_cases hans : aliveC ns = true
                · simp [(ihns hwfns).2 hans |>.2]
                · have hdns : aliveC ns = false := by simpa using hans
                  simp [(ihns hwfns).1 hdns, aliveHeadsC_of_dead ns hdns, headsC]
            · have hdfc : aliveC fc = false := by simpa using hafc
              have hans : aliveC ns = true := by
                rcases ha with h | h
                · exact absurd h hafc
                · exact h
              have h1 := (ihfc hwffc).1 hdfc
              obtain ⟨hne, hh⟩ := (ihns hwfns).2 hans
              refine ⟨by simpa [removeChain, h1] using hne, ?_⟩
              simp [removeChain, h1, hh, aliveHeadsC, hdfc]
      | hnone =>
          simp only [wfC, Bool.and_eq_true] at hwf
          obtain ⟨hwffc, hwfns⟩ := hwf
          constructor
          · intro hd
            simp only [aliveC, Bool.or_eq_false_iff] at hd
            have h1 := (ihfc hwffc).1 hd.1
            have h2 := (ihns hwfns).1 hd.2
            simp [removeChain, h1, h2]
          · intro ha
            simp only [aliveC, Bool.or_eq_true] at ha
            by_cases hafc : aliveC fc = true
            · obtain ⟨hne, hh⟩ := (ihfc hwffc).2 hafc
              have hstep : removeChain (TExpr.mk (Head.hnone) fc ns)
                  = TExpr.mk (Head.hnone) (removeChain fc) (removeChain ns) := by
                cases hrc : removeChain fc with
                | nil => exact absurd hrc hne
                | mk h2 fc2 ns2 => simp [removeChain, hrc]
              constructor
              · simp [hstep]
              · rw [hstep]
                simp only [headsC, aliveHeadsC, hafc, if_true]
                rw [hh]
                by_cases hans : aliveC ns = true
                · simp [(ihns hwfns).2 hans |>.2]
                · have hdns : aliveC ns = false := by simpa using hans
                  simp [(ihns hwfns).1 hdns, aliveHeadsC_of_dead ns hdns, headsC]
            · have hdfc : aliveC fc = false := by simpa using hafc
              have hans : aliveC ns = true := by
                rcases ha with h | h
                · exact absurd h hafc
                · exact h
              have h1 := (ihfc hwffc).1 hdfc
              obtain ⟨hne, hh⟩ := (ihns hwfns).2 hans
              refine ⟨by simpa [removeChain, h1] using hne, ?_⟩
              simp [removeChain, h1, hh, aliveHeadsC, hdfc]

/-- Token stream of `(S (-NONE- x))`. -/
def egDeadTokens : List Token :=
  [Token.lparen, Token.atom "S", Token.lparen, Token.atom "-NONE-", Token.atom "x",
   Token.rparen, Token.rparen]

/-- The tree `parse` yields for `(S (-NONE- x))`. -/
def egDeadTree : TExpr :=
  TExpr.mk (Head.hsym { label := "S", tags := [], coindex := none, parindex := none })
    (TExpr.mk (Head.hleaf { word := "x", pos := "-NONE-" }) TExpr.nil TExpr.nil)
    TExpr.nil

/-- C2 (counterexample): on the parsed tree of `(S (-NONE- x))` — whose
every Terminal is a `-NONE-` trace — `remove_empty_elements` returns the
tree completely unchanged: the `-NONE-` Terminal is *not* deleted, and no
empty-tree sentinel of any kind is produced (the function has no such
value; callers cannot tell that the tree "reduced to nothing"). -/
theorem claim2_counterexample :
    parse egDeadTokens = ([egDeadTree], none, []) ∧
    remove_empty_elements egDeadTree = egDeadTree ∧
    Head.hleaf { word := "x", pos := "-NONE-" } ∈ headsN (remove_empty_elements egDeadTree) :=
  ⟨by decide, by decide, by decide⟩

/-- C2 (amended): on well-formed trees (all parsed trees are such),
`remove_empty_elements` behaves as claimed *except at the root*: if some
node survives, the result's nodes are exactly the surviving nodes of the
original — `-NONE-` Terminals and NonTerminals all of whose children get
deleted are removed, all other nodes are kept, in the same depth-first
pre-order (so the relative order of surviving siblings is preserved); but
if nothing survives (or the root is a Terminal), the tree is returned
entirely unchanged — there is no empty-tree sentinel and no error, and the
supposedly deleted nodes are all still present. -/
theorem claim2_remove_empty_behavior (t : TExpr) (hwf : wfN t = true) :
    (aliveN t = false → remove_empty_elements t = t) ∧
    (aliveN t = true → headsN (remove_empty_elements t) = aliveHeadsN t) := by
  cases t with
  | nil => simp [wfN] at hwf
  | mk h fc ns =>
      cases h with
      | hleaf l =>
          simp only [wfN, Bool.and_eq_true, decide_eq_true_eq] at hwf
          obtain ⟨hpos, hfcnil⟩ := hwf
          subst hfcnil
          constructor
          · intro _
            rfl
          · intro ha
            simp only [aliveN, decide_eq_true_eq] at ha
            simp [remove_empty_elements, headsN, headsC, aliveHeadsN, ha]
      | hsym s =>
          simp only [wfN, Bool.and_eq_true, decide_eq_true_eq] at hwf
          obtain ⟨hlab, hwffc⟩ := hwf
          constructor
          · intro hd
            simp only [aliveN] at hd
            have h1 := (removeChain_spec fc hwffc).1 hd
            simp [remove_empty_elements, h1]
          · intro ha
            simp only [aliveN] at ha
            obtain ⟨hne, hh⟩ := (removeChain_spec fc hwffc).2 ha
            have hstep : remove_empty_elements (TExpr.mk (Head.hsym s) fc ns)
                = TExpr.mk (Head.hsym s) (removeChain fc) ns := by
              cases hrc : removeChain fc with
              | nil => exact absurd hrc hne
              | mk h2 fc2 ns2 => simp [remove_empty_elements, hrc]
            rw [hstep]
            simp [headsN, aliveHeadsN, ha, hh]
      | hnone =>
          simp only [wfN] at hwf
          constructor
          · intro hd
            simp only [aliveN] at hd
            have h1 := (removeChain_spec fc hwf).1 hd
            simp [remove_empty_elements, h1]
          · intro ha
            simp only [aliveN] at ha
            obtain ⟨hne, hh⟩ := (removeChain_spec fc hwf).2 ha
            have hstep : remove_empty_elements (TExpr.mk Head.hnone fc ns)
                = TExpr.mk Head.hnone (removeChain fc) ns := by
              cases hrc : removeChain fc with
              | nil => exact absurd hrc hne
              | mk h2 fc2 ns2 => simp [remove_empty_elements, hrc]
            rw [hstep]
            simp [headsN, aliveHeadsN, ha, hh]

theorem claim2_remove_empty_behavior_witness :
    wfN egTree = true ∧ aliveN egTree = true ∧
    headsN (remove_empty_elements egTree) = aliveHeadsN egTree :=
  ⟨by decide, by decide, (claim2_remove_empty_behavior egTree (by decide)).2 (by decide)⟩

/-- `add_root(tx, root_label)`: if the head is `None` (labelless wrapper) or
a `Symbol` labelled `ROOT` or `TOP`, the head is replaced in place by
`Symbol(root_label)`.  Otherwise the source executes
`tx = TExpr(Symbol(root_label), tx)` — a call with two arguments to the
three-parameter `TExpr.__init__(self, head, first_child, next_sibling)` —
which raises `TypeError` at run time; that failure is modelled as `none`.
(A `Leaf`-headed tree also reaches that branch, since `tx.symbol()` is
`None` for it; a bare Python `None` in place of a tree would raise
`AttributeError` on `tx.head`, also modelled as `none`.) -/
def add_root (tx : TExpr) (root_label : String) : Option TExpr :=
  match tx with
  | TExpr.nil => none
  | TExpr.mk Head.hnone fc ns =>
      some (TExpr.mk (Head.hsym (Symbol.ofString root_label)) fc ns)
  | TExpr.mk (Head.hsym s) fc ns =>
      if s.label = "ROOT" ∨ s.label = "TOP" then
        some (TExpr.mk (Head.hsym (Symbol.ofString root_label)) fc ns)
      else none
  | TExpr.mk (Head.hleaf _) _ _ => none

/-- Token stream of `(S (NN dog))`. -/
def egRootTokens : List Token :=
  [Token.lparen, Token.atom "S", Token.lparen, Token.atom "NN", Token.atom "dog",
   Token.rparen, Token.rparen]

/-- The tree `parse` yields for `(S (NN dog))`. -/
def egRootTree : TExpr :=
  TExpr.mk (Head.hsym { label := "S", tags := [], coindex := none, parindex := none })
    (TExpr.mk (Head.hleaf { word := "dog", pos := "NN" }) TExpr.nil TExpr.nil)
    TExpr.nil

/-- C3 (code bug): on the parsed tree of `(S (NN dog))` — a root whose
label is neither `ROOT` nor `TOP`, so the claimed "create a new
NonTerminal with the tree as its sole child" branch applies — `add_root`
does not return a new root: the source calls `TExpr(Symbol(root_label), tx)`
with two arguments where `TExpr.__init__` requires three, raising
`TypeError`.  The in-place branches (dummy label, labelless wrapper) do
work as claimed. -/
theorem claim3_add_root_typeerror :
    parse egRootTokens = ([egRootTree], none, []) ∧
    add_root egRootTree "ROOT" = none ∧
    add_root (TExpr.mk (Head.hsym (Symbol.ofString "TOP")) TExpr.nil TExpr.nil) "ROOT"
      = some (TExpr.mk (Head.hsym (Symbol.ofString "ROOT")) TExpr.nil TExpr.nil) ∧
    add_root (TExpr.mk Head.hnone egRootTree TExpr.nil) "ROOT"
      = some (TExpr.mk (Head.hsym (Symbol.ofString "ROOT")) egRootTree TExpr.nil) :=
  ⟨by decide, by decide, by decide, by decide⟩

/-- Splitting a `parse` run at a token-list boundary: an error in the first
part aborts the run; otherwise the second part continues from the first
part's final stack and the yielded trees concatenate. -/
theorem parseSteps_append (ts1 : List Token) : ∀ (stack : List SItem) (ts2 : List Token),
    parseSteps stack (ts1 ++ ts2)
      = match parseSteps stack ts1 with
        | (tr1, some e, st1) => (tr1, some e, st1)
        | (tr1, none, st1) =>
            (tr1 ++ (parseSteps st1 ts2).1,
              (parseSteps st1 ts2).2.1, (parseSteps st1 ts2).2.2) := by
  induction ts1 with
  | nil =>
      intro stack ts2
      show parseSteps stack ts2 = _
      simp [parseSteps]
  | cons t ts1 ih =>
      intro stack ts2
      cases t with
      | lparen => exact ih (SItem.lp :: stack) ts2
      | atom s => exact ih (SItem.sstr s :: stack) ts2
      | rparen =>
          rw [List.cons_append]
          cases hrp : rparenStep stack with
          | err =>
              rw [show parseSteps stack (Token.rparen :: (ts1 ++ ts2))
                    = ([], some PErr.indexError, stack) from by simp [parseSteps, hrp],
                  show parseSteps stack (Token.rparen :: ts1)
                    = ([], some PErr.indexError, stack) from by simp [parseSteps, hrp]]
          | push t rest =>
              rw [show parseSteps stack (Token.rparen :: (ts1 ++ ts2))
                    = parseSteps (SItem.stree t :: rest) (ts1 ++ ts2) from by
                  simp [parseSteps, hrp],
                  show parseSteps stack (Token.rparen :: ts1)
                    = parseSteps (SItem.stree t :: rest) ts1 from by simp [parseSteps, hrp]]
              exact ih (SItem.stree t :: rest) ts2
          | reduced t rest =>
              by_cases hre : rest.isEmpty
              · rw [show parseSteps stack (Token.rparen :: (ts1 ++ ts2))
                      = (t :: (parseSteps [] (ts1 ++ ts2)).1,
                         (parseSteps [] (ts1 ++ ts2)).2.1,
                         (parseSteps [] (ts1 ++ ts2)).2.2) from by
                    simp [parseSteps, hrp, hre],
                    show parseSteps stack (Token.rparen :: ts1)
                      = (t :: (parseSteps [] ts1).1,
                         (parseSteps [] ts1).2.1, (parseSteps [] ts1).2.2) from by
                    simp [parseSteps, hrp, hre]]
                rw [ih [] ts2]
                cases hq : parseSteps [] ts1 with
                | mk tr1 q =>
                    cases q with
                    | mk e1 st1 =>
                        cases e1 with
                        | some e => rfl
                        | none => simp
              · rw [show parseSteps stack (Token.rparen :: (ts1 ++ ts2))
                      = parseSteps (SItem.stree t :: rest) (ts1 ++ ts2) from by
                    simp [parseSteps, hrp, hre],
                    show parseSteps stack (Token.rparen :: ts1)
                      = parseSteps (SItem.stree t :: rest) ts1 from by
                    simp [parseSteps, hrp, hre]]
                exact ih (SItem.stree t :: rest) ts2

/-- C4 (counterexample): on the input `(` — an unmatched open parenthesis —
`parse` raises nothing at all: the generator simply ends, silently
discarding the leftover frame; no `UnbalancedParenthesesError` exists
anywhere in the source. -/
theorem claim4_counterexample :
    parse [Token.lparen] = ([], none, [SItem.lp]) := by decide

/-- C4 (amended): after any balanced prefix (a run that yielded `trees`
with an empty final stack and no error), an unmatched `)` makes `parse`
fail at once — but with an `IndexError` from the out-of-range stack access
`stack[-1]`, not an `UnbalancedParenthesesError` — before yielding any
tree for that group and regardless of the remaining input; an unmatched
`(` left open at the end of input is silently ignored: no error is raised
and no tree is yielded for it. -/
theorem claim4_unbalanced_behavior (pre rest : List Token) (trees : List TExpr)
    (h : parse pre = (trees, none, [])) :
    parse (pre ++ Token.rparen :: rest) = (trees, some PErr.indexError, []) ∧
    parse (pre ++ [Token.lparen]) = (trees, none, [SItem.lp]) := by
  unfold parse at h ⊢
  constructor
  · rw [parseSteps_append pre [] (Token.rparen :: rest), h]
    simp [parseSteps, rparenStep]
  · rw [parseSteps_append pre [] [Token.lparen], h]
    simp [parseSteps]

theorem claim4_unbalanced_behavior_witness :
    parse (egTokens ++ Token.rparen :: []) = ([egTree], some PErr.indexError, []) ∧
    parse (egTokens ++ [Token.lparen]) = ([egTree], none, [SItem.lp]) :=
  claim4_unbalanced_behavior egTokens [] [egTree] (by decide)

/-- Number of Terminals with tag other than `-NONE-` in a sibling chain. -/
def countC : TExpr → Nat
  | TExpr.nil => 0
  | TExpr.mk (Head.hleaf l) fc ns =>
      (if l.pos = "-NONE-" then 0 else 1) + countC fc + countC ns
  | TExpr.mk (Head.hsym _) fc ns => countC fc + countC ns
  | TExpr.mk Head.hnone fc ns => countC fc + countC ns

/-- Number of Terminals with tag other than `-NONE-` in a node's subtree. -/
def countN : TExpr → Nat
  | TExpr.nil => 0
  | TExpr.mk (Head.hleaf l) fc _ => (if l.pos = "-NONE-" then 0 else 1) + countC fc
  | TExpr.mk (Head.hsym _) fc _ => countC fc
  | TExpr.mk Head.hnone fc _ => countC fc

/-- On well-formed chains the running position advances by exactly the
number of non-`-NONE-` Terminals. -/
theorem endPosC_count : ∀ (ch : TExpr), wfC ch = true →
    ∀ b, endPosC ch b = b + countC ch := by
  intro ch
  induction ch with
  | nil => intro _ b; simp [endPosC, countC]
  | mk h fc ns ihfc ihns =>
      intro hwf b
      cases h with
      | hleaf l =>
          simp only [wfC, Bool.and_eq_true, decide_eq_true_eq] at hwf
          obtain ⟨⟨hpos, hfcnil⟩, hwfns⟩ := hwf
          subst hfcnil
          by_cases hn : l.pos = "-NONE-"
          · simp [endPosC, countC, hn, ihns hwfns]
          · simp only [endPosC, countC, hn, ne_eq, not_false_eq_true, if_true, if_false,
              ihns hwfns]
            omega
      | hsym s =>
          simp only [wfC, Bool.and_eq_true, decide_eq_true_eq] at hwf
          obtain ⟨⟨_, hwffc⟩, hwfns⟩ := hwf
          simp only [endPosC, countC, ihfc hwffc, ihns hwfns]
          omega
      | hnone =>
          simp only [wfC, Bool.and_eq_true] at hwf
          obtain ⟨hwffc, hwfns⟩ := hwf
          simp only [endPosC, countC, ihfc hwffc, ihns hwfns]
          omega

theorem endPosN_count (t : TExpr) (hwf : wfN t = true) (b : Nat) :
    endPosN t b = b + countN t := by
  cases t with
  | nil => simp [wfN] at hwf
  | mk h fc ns =>
      cases h with
      | hleaf l =>
          simp only [wfN, Bool.and_eq_true, decide_eq_true_eq] at hwf
          obtain ⟨hpos, hfcnil⟩ := hwf
          subst hfcnil
          by_cases hn : l.pos = "-NONE-" <;> simp [endPosN, countN, countC, endPosC, hn]
      | hsym s =>
          simp only [wfN, Bool.and_eq_true, decide_eq_true_eq] at hwf
          simp [endPosN, countN, endPosC_count fc hwf.2]
      | hnone =>
          simp only [wfN] at hwf
          simp [endPosN, countN, endPosC_count fc hwf]

/-- A stack item the parser invariant allows: atoms are non-empty, trees
are well-formed. -/
def SItem.OK : SItem → Prop
  | SItem.lp => True
  | SItem.sstr s => s ≠ ""
  | SItem.stree t => wfN t = true

/-- A decoded symbol always renders to a non-empty string when the source
atom was non-empty. -/
theorem toLabelString_ne_empty {a : String} (ha : a ≠ "") :
    (Symbol.ofString a).toLabelString ≠ "" := by
  have hlab : (Symbol.ofString a).label ≠ "" := by
    cases hl : hasLeadingLabel a with
    | true =>
        obtain ⟨⟨hne, _⟩, _⟩ := ofString_wf hl
        intro he
        rw [he] at hne
        exact hne rfl
    | false => rw [ofString_label_of_no_leading hl]; exact ha
  intro he
  have hdata : (Symbol.ofString a).toLabelString.toList = [] := by rw [he]; rfl
  rw [toLabelString_toList] at hdata
  have : (Symbol.ofString a).label.toList = [] := by
    cases hq : (Symbol.ofString a).label.toList with
    | nil => rfl
    | cons c cs => rw [hq] at hdata; simp at hdata
  exact hlab (by
    have := congrArg List.asString this
    rwa [String.asString_toList] at this)

/-- Linking a well-formed node in front of a well-formed chain gives a
well-formed chain. -/
theorem setNS_wfC {u tail : TExpr} (hu : wfN u = true) (ht : wfC tail = true) :
    wfC (u.setNS tail) = true := by
  cases u with
  | nil => simp [wfN] at hu
  | mk h fc ns =>
      cases h with
      | hleaf l =>
          simp only [wfN, Bool.and_eq_true] at hu
          simp [TExpr.setNS, wfC, hu.1, hu.2, ht]
      | hsym s =>
          simp only [wfN, Bool.and_eq_true] at hu
          simp [TExpr.setNS, wfC, hu.1, hu.2, ht]
      | hnone =>
          simp only [wfN] at hu
          simp [TExpr.setNS, wfC, hu, ht]

/-- The reduce loop yields a well-formed tree and leaves only invariant
stack items, given the invariant on entry. -/
theorem popFrame_ok : ∀ (st : List SItem) (tx : Option TExpr) (tail : TExpr),
    (∀ it ∈ st, SItem.OK it) →
    (∀ u, tx = some u → wfN u = true) →
    wfC tail = true →
    ∀ t rest, popFrame st tx tail = some (t, rest) →
      wfN t = true ∧ ∀ it ∈ rest, SItem.OK it := by
  intro st
  induction st with
  | nil => intro tx tail _ _ _ t rest h; simp [popFrame] at h
  | cons it st ih =>
      intro tx tail hok htx htail t rest h
      cases it with
      | lp =>
          simp only [popFrame] at h
          obtain ⟨h1, h2⟩ := Prod.mk.injEq .. ▸ (Option.some.injEq .. ▸ h)
          subst h2
          refine ⟨?_, fun x hx => hok x (by simp [hx])⟩
          cases tx with
          | some u => rw [← h1]; exact htx u rfl
          | none =>
              rw [← h1]
              show wfN (TExpr.mk Head.hnone tail TExpr.nil) = true
              simpa [wfN] using htail
      | sstr s =>
          simp only [popFrame] at h
          have hs : s ≠ "" := hok (SItem.sstr s) (by simp)
          refine ih _ _ (fun x hx => hok x (by simp [hx])) ?_ htail t rest h
          intro u hu
          cases hu
          show wfN (TExpr.mk (Head.hsym (Symbol.ofString s)) tail TExpr.nil) = true
          simp [wfN, toLabelString_ne_empty hs, htail]
      | stree u =>
          simp only [popFrame] at h
          have hu : wfN u = true := hok (SItem.stree u) (by simp)
          exact ih _ _ (fun x hx => hok x (by simp [hx])) htx
            (setNS_wfC hu htail) t rest h

/-- Handling the general-reduce path of the `)`-handler. -/
theorem rparenStep_popFrame_aux {stack : List SItem}
    (hok : ∀ it ∈ stack, SItem.OK it)
    (hred : rparenStep stack
      = match popFrame stack none TExpr.nil with
        | none => RpRes.err
        | some (u, rest) => RpRes.reduced u rest) :
    (∀ t rest, rparenStep stack = RpRes.push t rest →
      wfN t = true ∧ ∀ it ∈ rest, SItem.OK it) ∧
    (∀ t rest, rparenStep stack = RpRes.reduced t rest →
      wfN t = true ∧ ∀ it ∈ rest, SItem.OK it) := by
  constructor
  · intro t rest h
    rw [hred] at h
    cases hpf : popFrame stack none TExpr.nil with
    | none => rw [hpf] at h; cases h
    | some pr =>
        cases pr with
        | mk u r => rw [hpf] at h; cases h
  · intro t rest h
    rw [hred] at h
    cases hpf : popFrame stack none TExpr.nil with
    | none => rw [hpf] at h; cases h
    | some pr =>
        cases pr with
        | mk u r =>
            rw [hpf] at h
            cases h
            exact popFrame_ok stack none TExpr.nil hok (fun v hv => by cases hv) rfl
              _ _ hpf

/-- The `)`-handler preserves the stack invariant and only produces
well-formed trees. -/
theorem rparenStep_ok {stack : List SItem} (hok : ∀ it ∈ stack, SItem.OK it) :
    (∀ t rest, rparenStep stack = RpRes.push t rest →
      wfN t = true ∧ ∀ it ∈ rest, SItem.OK it) ∧
    (∀ t rest, rparenStep stack = RpRes.reduced t rest →
      wfN t = true ∧ ∀ it ∈ rest, SItem.OK it) := by
  cases stack with
  | nil => exact ⟨(fun t rest h => by cases h), (fun t rest h => by cases h)⟩
  | cons a s1 =>
      cases a with
      | lp => exact rparenStep_popFrame_aux hok rfl
      | stree u => exact rparenStep_popFrame_aux hok rfl
      | sstr w =>
          cases s1 with
          | nil => exact ⟨(fun t rest h => by cases h), (fun t rest h => by cases h)⟩
          | cons b s2 =>
              cases b with
              | lp => exact rparenStep_popFrame_aux hok rfl
              | stree u => exact rparenStep_popFrame_aux hok rfl
              | sstr p =>
                  cases s2 with
                  | nil => exact ⟨(fun t rest h => by cases h), (fun t rest h => by cases h)⟩
                  | cons c s3 =>
                      cases c with
                      | sstr q => exact rparenStep_popFrame_aux hok rfl
                      | stree u => exact rparenStep_popFrame_aux hok rfl
                      | lp =>
                          constructor
                          · intro t rest h
                            cases h
                            have hp : p ≠ "" :=
                              hok (SItem.sstr p) (by simp)
                            exact ⟨by simp [wfN, hp],
                              fun x hx => hok x (by simp [hx])⟩
                          · intro t rest h
                            cases h

/-- Every tree `parse` yields from a stream of non-empty atoms is
well-formed. -/
theorem parseSteps_wf : ∀ (ts : List Token) (stack : List SItem),
    (∀ s, Token.atom s ∈ ts → s ≠ "") →
    (∀ it ∈ stack, SItem.OK it) →
    ∀ t ∈ (parseSteps stack ts).1, wfN t = true := by
  intro ts
  induction ts with
  | nil => intro stack _ _ t ht; simp [parseSteps] at ht
  | cons tok ts ih =>
      intro stack hatom hok t ht
      cases tok with
      | lparen =>
          exact ih (SItem.lp :: stack) (fun s hs => hatom s (by simp [hs]))
            (fun it hit => by
              rcases List.mem_cons.1 hit with h | h
              · subst h; trivial
              · exact hok it h) t ht
      | atom a =>
          exact ih (SItem.sstr a :: stack) (fun s hs => hatom s (by simp [hs]))
            (fun it hit => by
              rcases List.mem_cons.1 hit with h | h
              · subst h; exact hatom a (by simp)
              · exact hok it h) t ht
      | rparen =>
          have hts : ∀ s, Token.atom s ∈ ts → s ≠ "" := fun s hs => hatom s (by simp [hs])
          cases hrp : rparenStep stack with
          | err =>
              have hstep : parseSteps stack (Token.rparen :: ts)
                  = ([], some PErr.indexError, stack) := by
                simp [parseSteps, hrp]
              rw [hstep] at ht
              simp at ht
          | push u rest =>
              have hstep : parseSteps stack (Token.rparen :: ts)
                  = parseSteps (SItem.stree u :: rest) ts := by
                simp [parseSteps, hrp]
              rw [hstep] at ht
              obtain ⟨hu, hrest⟩ := (rparenStep_ok hok).1 u rest hrp
              exact ih (SItem.stree u :: rest) hts
                (fun it hit => by
                  rcases List.mem_cons.1 hit with h | h
                  · subst h; exact hu
                  · exact hrest it h) t ht
          | reduced u rest =>
              obtain ⟨hu, hrest⟩ := (rparenStep_ok hok).2 u rest hrp
              by_cases hre : rest.isEmpty
              · have hstep : parseSteps stack (Token.rparen :: ts)
                    = (u :: (parseSteps [] ts).1,
                       (parseSteps [] ts).2.1, (parseSteps [] ts).2.2) := by
                  simp [parseSteps, hrp, hre]
                rw [hstep] at ht
                rcases List.mem_cons.1 ht with h | h
                · subst h; exact hu
                · exact ih [] hts (by simp) t h
              · have hstep : parseSteps stack (Token.rparen :: ts)
                    = parseSteps (SItem.stree u :: rest) ts := by
                  simp [parseSteps, hrp, hre]
                rw [hstep] at ht
                exact ih (SItem.stree u :: rest) hts
                  (fun it hit => by
                    rcases List.mem_cons.1 hit with h | h
                    · subst h; exact hu
                    · exact hrest it h) t ht

theorem parse_wf {ts : List Token} (hatom : ∀ s, Token.atom s ∈ ts → s ≠ "")
    {t : TExpr} (ht : t ∈ (parse ts).1) : wfN t = true :=
  parseSteps_wf ts [] hatom (by simp) t ht

/-- Root shapes for which the spec's "root span" claim can hold: a
`Symbol`-headed root, or a labelless wrapper with exactly one
`Symbol`- or `Leaf`-headed child. -/
def rootOK : TExpr → Bool
  | TExpr.mk (Head.hsym _) _ _ => true
  | TExpr.mk Head.hnone (TExpr.mk (Head.hsym _) _ TExpr.nil) _ => true
  | TExpr.mk Head.hnone (TExpr.mk (Head.hleaf _) _ TExpr.nil) _ => true
  | _ => false

/-- Every atom token in the stream is non-empty (decidable form). -/
def atomsOK (ts : List Token) : Bool :=
  ts.all (fun tok => match tok with | Token.atom s => decide (s ≠ "") | _ => true)

theorem atomsOK_spec {ts : List Token} (h : atomsOK ts = true) :
    ∀ s, Token.atom s ∈ ts → s ≠ "" := by
  intro s hs
  have := List.all_eq_true.1 h (Token.atom s) hs
  simpa using this

/-- C8 (amended): for every tree parsed without error from non-empty atoms
whose root is a `Symbol`-headed node — or a labelless wrapper with exactly
one `Symbol`- or `Leaf`-headed child — the first span emitted by
`all_spans` has `begin = 0` and `end` equal to the number of Terminals
whose tag is not `-NONE-`.  (The labelless wrapper itself receives no
span; when it has several children, or nests another wrapper, the first
span covers only part of the tree.) -/
theorem claim8_root_span (ts : List Token) (t : TExpr)
    (hatoms : atomsOK ts = true)
    (hmem : t ∈ (parse ts).1) (hroot : rootOK t = true) :
    ∃ L, (all_spans t).head? = some (L, 0, countN t) := by
  have hwf : wfN t = true := parse_wf (atomsOK_spec hatoms) hmem
  rw [all_spans_preorder]
  cases t with
  | nil => simp [rootOK] at hroot
  | mk h fc ns =>
      cases h with
      | hleaf l => simp [rootOK] at hroot
      | hsym s =>
          simp only [wfN, Bool.and_eq_true, decide_eq_true_eq] at hwf
          obtain ⟨hlab, hwffc⟩ := hwf
          refine ⟨s.toLabelString, ?_⟩
          simp only [preSpans, preN]
          rw [show emitted (TExpr.mk (Head.hsym s) fc ns) 0 0
              = [(0, (s.toLabelString, 0, endPosN (TExpr.mk (Head.hsym s) fc ns) 0))] from by
            simp [emitted, emitLabel, hlab]]
          rw [endPosN_count (TExpr.mk (Head.hsym s) fc ns)
            (by simp [wfN, hlab, hwffc]) 0]
          simp
      | hnone =>
          cases fc with
          | nil => simp [rootOK] at hroot
          | mk h2 fc2 ns2 =>
              cases ns2 with
              | mk h3 fc3 ns3 =>
                  cases h2 with
                  | hsym s2 => simp [rootOK] at hroot
                  | hleaf l2 => simp [rootOK] at hroot
                  | hnone => simp [rootOK] at hroot
              | nil =>
                  cases h2 with
                  | hnone => simp [rootOK] at hroot
                  | hsym s2 =>
                      simp only [wfN, wfC, Bool.and_eq_true, decide_eq_true_eq] at hwf
                      obtain ⟨⟨hlab2, hwffc2⟩, _⟩ := hwf
                      refine ⟨s2.toLabelString, ?_⟩
                      simp only [preSpans, preN]
                      rw [show emitted
                          (TExpr.mk Head.hnone (TExpr.mk (Head.hsym s2) fc2 TExpr.nil) ns) 0 0
                          = [] from by simp [emitted, emitLabel]]
                      rw [List.nil_append]
                      simp only [preC]
                      rw [show emitted (TExpr.mk (Head.hsym s2) fc2 TExpr.nil) 0 1
                          = [(1, (s2.toLabelString, 0,
                              endPosN (TExpr.mk (Head.hsym s2) fc2 TExpr.nil) 0))] from by
                        simp [emitted, emitLabel, hlab2]]
                      rw [endPosN_count (TExpr.mk (Head.hsym s2) fc2 TExpr.nil)
                        (by simp [wfN, hlab2, hwffc2]) 0]
                      simp [countN, countC]
                  | hleaf l2 =>
                      simp only [wfN, wfC, Bool.and_eq_true, decide_eq_true_eq] at hwf
                      obtain ⟨⟨hpos2, hfc2nil⟩, _⟩ := hwf
                      subst hfc2nil
                      refine ⟨l2.pos, ?_⟩
                      simp only [preSpans, preN]
                      rw [show emitted
                          (TExpr.mk Head.hnone
                            (TExpr.mk (Head.hleaf l2) TExpr.nil TExpr.nil) ns) 0 0
                          = [] from by simp [emitted, emitLabel]]
                      rw [List.nil_append]
                      simp only [preC]
                      rw [show emitted (TExpr.mk (Head.hleaf l2) TExpr.nil TExpr.nil) 0 1
                          = [(1, (l2.pos, 0,
                              endPosN (TExpr.mk (Head.hleaf l2) TExpr.nil TExpr.nil) 0))] from by
                        simp [emitted, emitLabel, hpos2]]
                      rw [endPosN_count (TExpr.mk (Head.hleaf l2) TExpr.nil TExpr.nil)
                        (by simp [wfN, hpos2]) 0]
                      simp [countN, countC]

theorem claim8_root_span_witness :
    ∃ L, (all_spans egTree).head? = some (L, 0, countN egTree) :=
  claim8_root_span egTokens egTree (by decide) (by decide) (by decide)

/-- Token stream of `( (A a) (B b) )` — a labelless wrapper with two
children. -/
def egWrapTokens : List Token :=
  [Token.lparen, Token.lparen, Token.atom "A", Token.atom "a", Token.rparen,
   Token.lparen, Token.atom "B", Token.atom "b", Token.rparen, Token.rparen]

/-- The tree `parse` yields for `( (A a) (B b) )`. -/
def egWrapTree : TExpr :=
  TExpr.mk Head.hnone
    (TExpr.mk (Head.hleaf { word := "a", pos := "A" }) TExpr.nil
      (TExpr.mk (Head.hleaf { word := "b", pos := "B" }) TExpr.nil TExpr.nil))
    TExpr.nil

/-- C8 (counterexample): `( (A a) (B b) )` parses without error to a
labelless wrapper with two children; the wrapper receives *no* span, so
the first span emitted is `(A, 0, 1)`, whose end `1` differs from the
number of non-`-NONE-` Terminals, `2`. -/
theorem claim8_counterexample :
    parse egWrapTokens = ([egWrapTree], none, []) ∧
    all_spans egWrapTree = [("A", 0, 1), ("B", 1, 2)] ∧
    countN egWrapTree = 2 ∧
    ((all_spans egWrapTree).head?.map (fun sp => sp.2.2)) ≠ some (countN egWrapTree) :=
  ⟨by decide, by decide, by decide, by decide⟩

/-- Walk a sibling chain to its `i`-th node, tracking the node's begin
position and pre-order number. -/
def chainAt : TExpr → Nat → Nat → Nat → Option (TExpr × Nat × Nat)
  | TExpr.nil, _, _, _ => none
  | TExpr.mk h fc ns, b, c, 0 => some (TExpr.mk h fc ns, b, c)
  | TExpr.mk h fc ns, b, c, i + 1 =>
      chainAt ns (endPosN (TExpr.mk h fc ns) b) (c + sizeN (TExpr.mk h fc ns)) i

/-- Walk a child-index path from a node, tracking begin position and
pre-order number; `nodeAt t 0 0 p` addresses the node at path `p` of the
tree `t`. -/
def nodeAt : TExpr → Nat → Nat → List Nat → Option (TExpr × Nat × Nat)
  | t, b, c, [] => some (t, b, c)
  | TExpr.nil, _, _, _ :: _ => none
  | TExpr.mk _ fc _, b, c, i :: p =>
      match chainAt fc b (c + 1) i with
      | none => none
      | some (ch, bc, cc) => nodeAt ch bc cc p

/-- A well-formed non-`Leaf` node's head gives `wfC` of its children and
`endPosN` = `endPosC` of the children. -/
theorem wfN_children {h : Head} {fc ns : TExpr}
    (hwf : wfN (TExpr.mk h fc ns) = true) : wfC fc = true := by
  cases h with
  | hleaf l =>
      simp only [wfN, Bool.and_eq_true, decide_eq_true_eq] at hwf
      rw [hwf.2]
      rfl
  | hsym s =>
      simp only [wfN, Bool.and_eq_true] at hwf
      exact hwf.2
  | hnone => simpa [wfN] using hwf

theorem wfC_node {h : Head} {fc ns : TExpr}
    (hwf : wfC (TExpr.mk h fc ns) = true) :
    wfN (TExpr.mk h fc ns) = true ∧ wfC ns = true := by
  cases h with
  | hleaf l =>
      simp only [wfC, Bool.and_eq_true] at hwf
      exact ⟨by simp [wfN, hwf.1.1, hwf.1.2], hwf.2⟩
  | hsym s =>
      simp only [wfC, Bool.and_eq_true] at hwf
      exact ⟨by simp [wfN, hwf.1.1, hwf.1.2], hwf.2⟩
  | hnone =>
      simp only [wfC, Bool.and_eq_true] at hwf
      exact ⟨by simp [wfN, hwf.1], hwf.2⟩

/-- Bounds for the node addressed in a well-formed chain: its rendered
range and numbers lie within the chain's. -/
theorem chainAt_spec : ∀ (i : Nat) (fc : TExpr) (b c : Nat), wfC fc = true →
    ∀ ch bc cc, chainAt fc b c i = some (ch, bc, cc) →
      wfN ch = true ∧ b ≤ bc ∧ endPosN ch bc ≤ endPosC fc b ∧
        c ≤ cc ∧ cc + sizeN ch ≤ c + sizeC fc := by
  intro i
  induction i with
  | zero =>
      intro fc b c hwf ch bc cc h
      cases fc with
      | nil => simp [chainAt] at h
      | mk h2 fc2 ns2 =>
          obtain ⟨hnode, hns⟩ := wfC_node hwf
          injection h with h'
          injection h' with ha hbc
          injection hbc with hb hc
          subst ha
          subst hb
          subst hc
          refine ⟨hnode, Nat.le_refl _, ?_, Nat.le_refl _, ?_⟩
          · rw [endPosC_mk, endPosC_count ns2 hns]
            omega
          · simp only [sizeC, sizeN]
            omega
  | succ i ih =>
      intro fc b c hwf ch bc cc h
      cases fc with
      | nil => simp [chainAt] at h
      | mk h2 fc2 ns2 =>
          obtain ⟨hnode, hns⟩ := wfC_node hwf
          have hstep : chainAt (TExpr.mk h2 fc2 ns2) b c (i + 1)
              = chainAt ns2 (endPosN (TExpr.mk h2 fc2 ns2) b)
                  (c + sizeN (TExpr.mk h2 fc2 ns2)) i := rfl
          rw [hstep] at h
          obtain ⟨hwfch, hble, hend, hcle, hsz⟩ := ih ns2 _ _ hns ch bc cc h
          have hbn : b ≤ endPosN (TExpr.mk h2 fc2 ns2) b := by
            rw [endPosN_count _ hnode]
            omega
          refine ⟨hwfch, le_trans hbn hble, ?_, ?_, ?_⟩
          · rw [endPosC_mk]
            exact hend
          · omega
          · have hsz2 : sizeC (TExpr.mk h2 fc2 ns2)
                = sizeN (TExpr.mk h2 fc2 ns2) + sizeC ns2 := by
              simp only [sizeC, sizeN]
            omega


theorem nodeAt_nil (t : TExpr) (b c : Nat) : nodeAt t b c [] = some (t, b, c) := by
  cases t <;> rfl

/-- Bounds for a descendant node addressed by a path: its rendered range is
contained in the ancestor's, its pre-order number stays within the
ancestor's subtree and strictly exceeds the ancestor's when the path is
non-empty. -/
theorem nodeAt_desc : ∀ (q : List Nat) (A : TExpr) (bA cA : Nat), wfN A = true →
    ∀ B bB cB, nodeAt A bA cA q = some (B, bB, cB) →
      wfN B = true ∧ bA ≤ bB ∧ endPosN B bB ≤ endPosN A bA ∧
        cA ≤ cB ∧ cB + sizeN B ≤ cA + sizeN A ∧ (q ≠ [] → cA < cB) := by
  intro q
  induction q with
  | nil =>
      intro A bA cA hwf B bB cB h
      rw [nodeAt_nil] at h
      injection h with h'
      injection h' with ha hbc
      injection hbc with hb hc
      subst ha
      subst hb
      subst hc
      exact ⟨hwf, Nat.le_refl _, Nat.le_refl _, Nat.le_refl _, Nat.le_refl _,
        fun hq => absurd rfl hq⟩
  | cons i q ih =>
      intro A bA cA hwf B bB cB h
      cases A with
      | nil => simp [nodeAt] at h
      | mk h0 fc ns =>
          have hwffc : wfC fc = true := wfN_children hwf
          have hstep : nodeAt (TExpr.mk h0 fc ns) bA cA (i :: q)
              = match chainAt fc bA (cA + 1) i with
                | none => none
                | some (ch, bc, cc) => nodeAt ch bc cc q := rfl
          rw [hstep] at h
          cases hca : chainAt fc bA (cA + 1) i with
          | none => rw [hca] at h; cases h
          | some pr =>
              obtain ⟨ch, bc, cc⟩ := pr
              rw [hca] at h
              obtain ⟨hwfch, hble, hend, hcle, hsz⟩ :=
                chainAt_spec i fc bA (cA + 1) hwffc ch bc cc hca
              obtain ⟨hwfB, hbB, hendB, hcB, hszB, _⟩ := ih ch bc cc hwfch B bB cB h
              have hnotleaf : endPosN (TExpr.mk h0 fc ns) bA = endPosC fc bA := by
                cases h0 with
                | hleaf l =>
                    simp only [wfN, Bool.and_eq_true, decide_eq_true_eq] at hwf
                    obtain ⟨_, hfcnil⟩ := hwf
                    rw [hfcnil] at hca
                    simp [chainAt] at hca
                | hsym s => rfl
                | hnone => rfl
          
              have hszA : sizeN (TExpr.mk h0 fc ns) = 1 + sizeC fc := rfl
              refine ⟨hwfB, le_trans hble hbB, ?_, ?_, ?_, fun _ => ?_⟩
              · rw [hnotleaf]
                exact le_trans hendB hend
              · omega
              · omega
              · omega

/-- An entry of a node addressed inside a chain occurs among the chain's
pre-order pairs. -/
theorem chainAt_mem : ∀ (i : Nat) (fc : TExpr) (b c : Nat) (ch : TExpr) (bc cc : Nat),
    chainAt fc b c i = some (ch, bc, cc) →
    ∀ e, e ∈ preN ch bc cc → e ∈ preC fc b c := by
  intro i
  induction i with
  | zero =>
      intro fc b c ch bc cc h e he
      cases fc with
      | nil => simp [chainAt] at h
      | mk h2 fc2 ns2 =>
          injection h with h'
          injection h' with ha hbc
          injection hbc with hb hc
          subst ha
          subst hb
          subst hc
          simp only [preN] at he
          simp only [preC]
          exact List.mem_append.2 (Or.inl he)
  | succ i ih =>
      intro fc b c ch bc cc h e he
      cases fc with
      | nil => simp [chainAt] at h
      | mk h2 fc2 ns2 =>
          have hstep : chainAt (TExpr.mk h2 fc2 ns2) b c (i + 1)
              = chainAt ns2 (endPosN (TExpr.mk h2 fc2 ns2) b)
                  (c + sizeN (TExpr.mk h2 fc2 ns2)) i := rfl
          rw [hstep] at h
          simp only [preC]
          exact List.mem_append.2 (Or.inr (ih ns2 _ _ ch bc cc h e he))

/-- The span entry of the node addressed by a path occurs among the tree's
pre-order pairs. -/
theorem nodeAt_mem : ∀ (q : List Nat) (A : TExpr) (b c : Nat)
    (B : TExpr) (bB cB : Nat) (L : String),
    nodeAt A b c q = some (B, bB, cB) → emitLabel B = some L →
    (cB, (L, bB, endPosN B bB)) ∈ preN A b c := by
  intro q
  induction q with
  | nil =>
      intro A b c B bB cB L h hL
      rw [nodeAt_nil] at h
      injection h with h'
      injection h' with ha hbc
      injection hbc with hb hc
      subst ha
      subst hb
      subst hc
      cases A with
      | nil => simp [emitLabel] at hL
      | mk h0 fc ns =>
          simp only [preN]
          refine List.mem_append.2 (Or.inl ?_)
          simp [emitted, hL]
  | cons i q ih =>
      intro A b c B bB cB L h hL
      cases A with
      | nil => simp [nodeAt] at h
      | mk h0 fc ns =>
          have hstep : nodeAt (TExpr.mk h0 fc ns) b c (i :: q)
              = match chainAt fc b (c + 1) i with
                | none => none
                | some (ch, bc, cc) => nodeAt ch bc cc q := rfl
          rw [hstep] at h
          cases hca : chainAt fc b (c + 1) i with
          | none => rw [hca] at h; cases h
          | some pr =>
              obtain ⟨ch, bc, cc⟩ := pr
              rw [hca] at h
              simp only [preN]
              exact List.mem_append.2 (Or.inr
                (chainAt_mem i fc b (c + 1) ch bc cc hca _ (ih ch bc cc B bB cB L h hL)))

/-- Pre-order numbers are strictly increasing along `preN`. -/
theorem preN_nums (t : TExpr) (b c : Nat) :
    (preN t b c).Pairwise (fun x y => x.1 < y.1) := by
  cases t with
  | nil => simp [preN]
  | mk h fc ns =>
      simp only [preN]
      apply List.pairwise_append.2
      refine ⟨?_, (preC_nums fc b (c + 1)).1, ?_⟩
      · cases hl : emitLabel (TExpr.mk h fc ns) <;> simp [emitted, hl]
      · intro x hx y hy
        have hx1 : x.1 = c := by
          unfold emitted at hx
          cases hl : emitLabel (TExpr.mk h fc ns) with
          | none => rw [hl] at hx; simp at hx
          | some L => rw [hl] at hx; simp at hx; rw [hx]
        have := ((preC_nums fc b (c + 1)).2 y hy).1
        omega

/-- In a list whose first components are strictly increasing, two members
with ordered first components occupy ordered positions. -/
theorem mem_pairwise_indices {α : Type} {l : List (Nat × α)}
    (hp : l.Pairwise (fun x y => x.1 < y.1)) {e1 e2 : Nat × α}
    (h1 : e1 ∈ l) (h2 : e2 ∈ l) (hlt : e1.1 < e2.1) :
    ∃ i j, i < j ∧ l.get? i = some e1 ∧ l.get? j = some e2 := by
  obtain ⟨i, hi⟩ := List.mem_iff_get.1 h1
  obtain ⟨j, hj⟩ := List.mem_iff_get.1 h2
  have hpg := List.pairwise_iff_get.1 hp
  have hij : (i : Nat) < (j : Nat) := by
    rcases Nat.lt_trichotomy (i : Nat) (j : Nat) with h | h | h
    · exact h
    · exfalso
      have : e1 = e2 := by
        rw [← hi, ← hj]
        congr 1
        exact Fin.ext h
      rw [this] at hlt
      exact Nat.lt_irrefl _ hlt
    · exfalso
      have := hpg j i (by omega)
      rw [hi, hj] at this
      omega
  refine ⟨i, j, hij, ?_, ?_⟩
  · rw [List.get?_eq_get i.isLt, hi]
  · rw [List.get?_eq_get j.isLt, hj]

/-- Walking a concatenated path passes through the intermediate node. -/
theorem nodeAt_append : ∀ (p q : List Nat) (t : TExpr) (b c : Nat)
    (A : TExpr) (bA cA : Nat),
    nodeAt t b c p = some (A, bA, cA) →
    nodeAt t b c (p ++ q) = nodeAt A bA cA q := by
  intro p
  induction p with
  | nil =>
      intro q t b c A bA cA h
      rw [nodeAt_nil] at h
      injection h with h'
      injection h' with ha hbc
      injection hbc with hb hc
      subst ha
      subst hb
      subst hc
      rfl
  | cons i p ih =>
      intro q t b c A bA cA h
      cases t with
      | nil => simp [nodeAt] at h
      | mk h0 fc ns =>
          have hstep : ∀ r, nodeAt (TExpr.mk h0 fc ns) b c (i :: r)
              = match chainAt fc b (c + 1) i with
                | none => none
                | some (ch, bc, cc) => nodeAt ch bc cc r := fun r => rfl
          rw [hstep p] at h
          rw [show (i :: p) ++ q = i :: (p ++ q) from rfl, hstep (p ++ q)]
          cases hca : chainAt fc b (c + 1) i with
          | none => rw [hca] at h; cases h
          | some pr =>
              obtain ⟨ch, bc, cc⟩ := pr
              rw [hca] at h
              exact ih q ch bc cc A bA cA h

/-- C9: for every well-formed tree (all parsed trees are such) and every
pair of nodes A (at path `p`) and B (a proper descendant, at path
`p ++ q`), A's half-open range contains B's, and whenever both emit spans
and share the same begin, A's span appears strictly before B's span in the
output of `all_spans` (in fact ancestors always precede descendants, since
the output is in pre-order of the node numbering). -/
theorem claim9_span_nesting (t A B : TExpr) (p q : List Nat) (bA cA bB cB : Nat)
    (hwf : wfN t = true)
    (hA : nodeAt t 0 0 p = some (A, bA, cA))
    (hB : nodeAt t 0 0 (p ++ q) = some (B, bB, cB))
    (hq : q ≠ []) :
    (bA ≤ bB ∧ endPosN B bB ≤ endPosN A bA) ∧
    (∀ LA LB, emitLabel A = some LA → emitLabel B = some LB → bA = bB →
      ∃ i j, i < j ∧
        (all_spans t).get? i = some (LA, bA, endPosN A bA) ∧
        (all_spans t).get? j = some (LB, bB, endPosN B bB)) := by
  have hB' : nodeAt A bA cA q = some (B, bB, cB) := by
    rw [← nodeAt_append p q t 0 0 A bA cA hA]
    exact hB
  obtain ⟨hwfA, _, _, _, _, _⟩ := nodeAt_desc p t 0 0 hwf A bA cA hA
  obtain ⟨hwfB, hble, hend, hcle, _, hstrict⟩ := nodeAt_desc q A bA cA hwfA B bB cB hB'
  refine ⟨⟨hble, hend⟩, ?_⟩
  intro LA LB hLA hLB _
  have memA := nodeAt_mem p t 0 0 A bA cA LA hA hLA
  have memB := nodeAt_mem (p ++ q) t 0 0 B bB cB LB hB hLB
  obtain ⟨i, j, hij, hgi, hgj⟩ :=
    mem_pairwise_indices (preN_nums t 0 0) memA memB (hstrict hq)
  refine ⟨i, j, hij, ?_, ?_⟩
  · rw [all_spans_preorder]
    unfold preSpans
    rw [List.get?_map, hgi]
    rfl
  · rw [all_spans_preorder]
    unfold preSpans
    rw [List.get?_map, hgj]
    rfl

/-- The first child of `egTree` (the `-NONE-` Terminal, with its sibling
link). -/
def egLeafNone : TExpr :=
  TExpr.mk (Head.hleaf { word := "x", pos := "-NONE-" }) TExpr.nil
    (TExpr.mk (Head.hleaf { word := "dog", pos := "NN" }) TExpr.nil TExpr.nil)

theorem claim9_span_nesting_witness :
    (0 ≤ 0 ∧ endPosN egLeafNone 0 ≤ endPosN egTree 0) ∧
    (∀ LA LB, emitLabel egTree = some LA → emitLabel egLeafNone = some LB → 0 = 0 →
      ∃ i j, i < j ∧
        (all_spans egTree).get? i = some (LA, 0, endPosN egTree 0) ∧
        (all_spans egTree).get? j = some (LB, 0, endPosN egLeafNone 0)) :=
  claim9_span_nesting egTree egTree egLeafNone [] [0] 0 0 0 1
    (by decide) (by decide) (by decide) (by decide)

/-!  A mutable-object model for the frame property of `all_spans`.  Python
nodes are heap objects whose attributes (`head`, `first_child`,
`next_sibling`) a traversal callback *could* reassign; here the heap is an
explicit store of nodes addressed by index, and the traversal hooks have
the mutation-capable type `Store → Nat → ASt → ASt × Store`.  The hooks of
`all_spans` only read the store — exactly as in the source, whose `pre`
and `post` never assign to any attribute of `tx` — and the theorem below
shows the traversal then returns the store unchanged: every node's symbol,
leaf, child link and sibling link is exactly as before, and a second call
returns the same span list. -/

/-- A heap node: `head` plus child/sibling pointers. -/
structure SNode where
  head : Head
  first_child : Option Nat
  next_sibling : Option Nat
deriving DecidableEq, Repr

/-- The heap: a store of nodes addressed by position. -/
abbrev Store := List SNode

def getN (σ : Store) (i : Nat) : Option SNode := σ.get? i

/-- The `pre` hook of `all_spans` over the store: reads nothing, writes
nothing. -/
def spansPreSt (σ : Store) (_ : Nat) (st : ASt) : ASt × Store :=
  match st with
  | (sp, stk, b, c) => ((sp, (c, b) :: stk, b, c + 1), σ)

/-- The `post` hook of `all_spans` over the store: reads the node's head
(its `leaf()`/`symbol()`), writes nothing. -/
def spansPostSt (σ : Store) (i : Nat) (st : ASt) : ASt × Store :=
  match getN σ i with
  | none => (st, σ)
  | some n => (spansPost (TExpr.mk n.head TExpr.nil TExpr.nil) st, σ)

/-- Traversal of a sibling chain over the store, with mutation-capable
hooks and explicit fuel (pointer graphs may be cyclic): `pre` on the node,
its children (read from the possibly-updated store after `pre`), `post`,
then the next sibling (read from the store after `post`, as the lazy
`children()` generator does). -/
def travCSt (pre post : Store → Nat → ASt → ASt × Store) :
    Nat → Store → Option Nat → ASt → Option (ASt × Store)
  | 0, _, _, _ => none
  | _ + 1, σ, none, st => some (st, σ)
  | fuel + 1, σ, some i, st =>
      match pre σ i st with
      | (st1, σ1) =>
        match getN σ1 i with
        | none => none
        | some n =>
          match travCSt pre post fuel σ1 n.first_child st1 with
          | none => none
          | some (st2, σ2) =>
            match post σ2 i st2 with
            | (st3, σ3) =>
              match getN σ3 i with
              | none => none
              | some n2 => travCSt pre post fuel σ3 n2.next_sibling st3

/-- `traverse` of a single root node over the store (the root's own
`next_sibling` is not followed). -/
def travNSt (pre post : Store → Nat → ASt → ASt × Store)
    (fuel : Nat) (σ : Store) (i : Nat) (st : ASt) : Option (ASt × Store) :=
  match fuel with
  | 0 => none
  | fuel + 1 =>
    match pre σ i st with
    | (st1, σ1) =>
      match getN σ1 i with
      | none => none
      | some n =>
        match travCSt pre post fuel σ1 n.first_child st1 with
        | none => none
        | some (st2, σ2) => some (post σ2 i st2)

/-- `all_spans` over the store: traverse from the initial state, sort,
strip the numbers; the final store is returned alongside. -/
def all_spans_st (fuel : Nat) (σ : Store) (root : Nat) :
    Option (List SpanT × Store) :=
  match travNSt spansPreSt spansPostSt fuel σ root ([], [], 0, 0) with
  | none => none
  | some ((sp, _, _, _), σ2) =>
      some ((List.insertionSort pairLe sp).map (fun p => p.2), σ2)

/-- The chain traversal with the (read-only) `all_spans` hooks returns the
store unchanged. -/
theorem travCSt_pure : ∀ (fuel : Nat) (σ : Store) (oi : Option Nat)
    (st st' : ASt) (σ' : Store),
    travCSt spansPreSt spansPostSt fuel σ oi st = some (st', σ') → σ' = σ := by
  intro fuel
  induction fuel with
  | zero => intro σ oi st st' σ' h; simp [travCSt] at h
  | succ fuel ih =>
      intro σ oi st st' σ' h
      cases oi with
      | none =>
          simp only [travCSt] at h
          injection h with h'
          injection h' with h1 h2
          exact h2.symm
      | some i =>
          obtain ⟨sp, stk, b, c⟩ := st
          simp only [travCSt, spansPreSt] at h
          cases hg : getN σ i with
          | none => simp only [hg] at h; cases h
          | some n =>
              simp only [hg] at h
              cases hc : travCSt spansPreSt spansPostSt fuel σ n.first_child
                  (sp, (c, b) :: stk, b, c + 1) with
              | none => simp only [hc] at h; cases h
              | some pr =>
                  obtain ⟨st2, σ2⟩ := pr
                  simp only [hc] at h
                  have hσ2 : σ2 = σ := ih σ n.first_child _ st2 σ2 hc
                  subst hσ2
                  simp only [spansPostSt] at h
                  cases hg2 : getN σ2 i with
                  | none => simp only [hg2] at h; cases h
                  | some n2 =>
                      simp only [hg2] at h
                      exact ih σ2 n2.next_sibling _ st' σ' h

/-- The root traversal with the `all_spans` hooks returns the store
unchanged. -/
theorem travNSt_pure {fuel : Nat} {σ : Store} {i : Nat} {st st' : ASt} {σ' : Store}
    (h : travNSt spansPreSt spansPostSt fuel σ i st = some (st', σ')) : σ' = σ := by
  cases fuel with
  | zero => simp [travNSt] at h
  | succ fuel =>
      obtain ⟨sp, stk, b, c⟩ := st
      simp only [travNSt, spansPreSt] at h
      cases hg : getN σ i with
      | none => simp only [hg] at h; cases h
      | some n =>
          simp only [hg] at h
          cases hc : travCSt spansPreSt spansPostSt fuel σ n.first_child
              (sp, (c, b) :: stk, b, c + 1) with
          | none => simp only [hc] at h; cases h
          | some pr =>
              obtain ⟨st2, σ2⟩ := pr
              simp only [hc] at h
              simp only [spansPostSt] at h
              cases hg2 : getN σ2 i with
              | none =>
                  simp only [hg2] at h
                  injection h with h'
                  injection h' with h1 h2
                  rw [← h2]
                  exact travCSt_pure fuel σ n.first_child _ st2 σ2 hc
              | some n2 =>
                  simp only [hg2] at h
                  injection h with h'
                  injection h' with h1 h2
                  rw [← h2]
                  exact travCSt_pure fuel σ n.first_child _ st2 σ2 hc

/-- C10: `all_spans` is a pure query.  In the mutable-object model — where
the traversal hooks are given the power to rewrite any node's attributes —
running `all_spans` leaves the store exactly as it was: every node's
symbol/leaf head, `first_child` link and `next_sibling` link is unchanged;
consequently a second call on the same tree returns the same span list
(and again leaves the store unchanged). -/
theorem claim10_all_spans_pure (fuel : Nat) (σ : Store) (root : Nat)
    (res : List SpanT) (σ2 : Store)
    (h : all_spans_st fuel σ root = some (res, σ2)) :
    σ2 = σ ∧ all_spans_st fuel σ2 root = some (res, σ2) := by
  have hσ : σ2 = σ := by
    unfold all_spans_st at h
    cases ht : travNSt spansPreSt spansPostSt fuel σ root ([], [], 0, 0) with
    | none => rw [ht] at h; cases h
    | some pr =>
        obtain ⟨st1, σ1⟩ := pr
        rw [ht] at h
        obtain ⟨sp, stk, b, c⟩ := st1
        injection h with h'
        injection h' with h1 h2
        rw [← h2]
        exact travNSt_pure ht
  subst hσ
  exact ⟨rfl, h⟩

/-- A two-node store for `(S (NN dog))`: node 0 is the `S` NonTerminal
whose first child is node 1, the `(NN dog)` Terminal. -/
def egStore : Store :=
  [{ head := Head.hsym { label := "S", tags := [], coindex := none, parindex := none },
     first_child := some 1, next_sibling := none },
   { head := Head.hleaf { word := "dog", pos := "NN" },
     first_child := none, next_sibling := none }]

theorem claim10_all_spans_pure_witness :
    egStore = egStore ∧
    all_spans_st 4 egStore 0 = some ([("S", 0, 1), ("NN", 0, 1)], egStore) :=
  claim10_all_spans_pure 4 egStore 0 [("S", 0, 1), ("NN", 0, 1)] egStore (by decide)

/-- C7: decomposing `NP-SBJ-1` yields label `NP`, tags `[SBJ]`, coindex `1`,
parindex `None`; decomposing `WHNP-2=3` yields label `WHNP`, no tags,
coindex `2`, parindex `3` — the marker character (`=` versus `-` before
digits) selects the index field, not its position in the string. -/
theorem claim7_marker_selects_index_field :
    Symbol.ofString "NP-SBJ-1" =
      { label := "NP", tags := ["SBJ"], coindex := some "1", parindex := none } ∧
    Symbol.ofString "WHNP-2=3" =
      { label := "WHNP", tags := [], coindex := some "2", parindex := some "3" } := by
  exact ⟨by decide, by decide⟩

end Ptb
